import Mathlib

/-!
Shallow embedding of the match-3 board engine from `src/functional/src/board.ts`.

Tile values of generic type `T` are modelled as `Option T`: a slot's value is
`none` exactly when the TypeScript value is `undefined` (transiently, during
clearing).  Positions are pairs of mathematical integers, matching TypeScript
numbers on every input the engine is exercised with (all indices are integral).
The external tile-value supplier (`Generator<T>`, an object whose `next()`
yields one value per call) is modelled as a finite list of upcoming values that
is threaded through the computation; exhaustion of the supplier (which throws
in the test double `GeneratorFake`) is modelled as `Option.none` / a failure
result.  The in-place mutation of the shared tile array is modelled by explicit
state passing: every function that mutates the board in TypeScript returns the
new board value here.
-/

namespace Match3

/-- Source type `Position` from board.ts: an integer pair `(row, col)`. -/
structure Position where
  row : Int
  col : Int
deriving DecidableEq, Repr

/-- Source type `Match<T>` from board.ts: the matched value and the list of positions.
The `matched` field is `Option T` because tile values are (transiently)
optional; a real match always carries a present value. -/
structure MatchRec (T : Type) where
  matched : Option T
  positions : List Position
deriving DecidableEq, Repr

/-- Source type `DIRECTION` from board.ts. -/
inductive DIRECTION where
  | UP
  | DOWN
  | LEFT
  | RIGHT
deriving DecidableEq, Repr

/-- Source type `TilePiece<T>` from board.ts: a fixed position plus a mutable value. -/
structure TilePiece (T : Type) where
  position : Position
  value : Option T
deriving DecidableEq, Repr

/-- Source type `Board<T>` from board.ts: width, height and the flat list of tile pieces
(row-major at creation time). -/
structure Board (T : Type) where
  width : Int
  height : Int
  tilePieces : List (TilePiece T)
deriving DecidableEq, Repr

/-- Source type `BoardEffect<T>` from board.ts: either a `Match` effect carrying the match
record, or a `Refill` effect carrying (a snapshot of) the board. -/
inductive BoardEffect (T : Type) where
  | matchEff : MatchRec T → BoardEffect T
  | refill : Board T → BoardEffect T
deriving DecidableEq, Repr

/-- Source type `MatchResult<T>` from board.ts: effects plus matched tile pieces. -/
structure MatchResult (T : Type) where
  boardEffects : List (BoardEffect T)
  matchesFound : List (TilePiece T)
deriving DecidableEq, Repr

/-- Source type `MoveResult<T>` from board.ts: the board and the ordered effect log. -/
structure MoveResult (T : Type) where
  board : Board T
  boardEffects : List (BoardEffect T)
deriving DecidableEq, Repr

/-- Result of the cascade loop (`CheckBoard`/`UpdateBoard` mutual recursion):
normal completion, supplier failure (TypeScript would throw), or fuel
exhaustion of the fuelled embedding of the loop. -/
inductive CascadeResult (T : Type) where
  | ok : Board T → List T → List (BoardEffect T) → CascadeResult T
  | genFail : CascadeResult T
  | fuelFail : CascadeResult T
deriving DecidableEq, Repr

/-- The index list of a TypeScript loop `for (i = 0; i < bound; i++)`. -/
def loopRange (bound : Int) : List Int :=
  (List.range bound.toNat).map Int.ofNat

/-- The index list of the column-scan loop `for (i = width; i >= 0; i--)`:
`width` down to `0` inclusive (empty when `width < 0`). -/
def colLoopIndices (width : Int) : List Int :=
  if width < 0 then [] else ((List.range (width.toNat + 1)).map Int.ofNat).reverse

/-- The row-major list of grid positions produced by the loops of `Init`. -/
def allPositions (height width : Int) : List Position :=
  ((loopRange height).map (fun r => (loopRange width).map (fun c => Position.mk r c))).flatten

variable {T : Type} [DecidableEq T]

/-- Source function `IsPositionOutsideBoard` from board.ts.  Despite its name it returns
`true` when the position IS inside the board (the source's boolean is
inverted relative to the name; callers use it accordingly). -/
def IsPositionOutsideBoard (board : Board T) (p : Position) : Bool :=
  if p.col ≥ board.width ∨ p.col < 0 then false
  else if p.row ≥ board.height ∨ p.row < 0 then false
  else true

/-- Source function `FindTilePieceOnPosition` from board.ts: the first tile piece whose
position equals the requested one (`Array.prototype.find`). -/
def FindTilePieceOnPosition (board : Board T) (position : Position) :
    Option (TilePiece T) :=
  board.tilePieces.find? (fun element => decide (element.position = position))

/-- Source function `FindAllTilePiecesInRow` from board.ts. -/
def FindAllTilePiecesInRow (board : Board T) (rowIndex : Int) : List (TilePiece T) :=
  board.tilePieces.filter (fun element => decide (element.position.row = rowIndex))

/-- Source function `FindAllTilePiecesInColumn` from board.ts. -/
def FindAllTilePiecesInColumn (board : Board T) (columnIndex : Int) : List (TilePiece T) :=
  board.tilePieces.filter (fun element => decide (element.position.col = columnIndex))

/-- Source function `FindNextPiecePosition` from board.ts. -/
def FindNextPiecePosition (currentPiece : TilePiece T) (direction : DIRECTION) : Position :=
  match direction with
  | .DOWN => ⟨currentPiece.position.row + 1, currentPiece.position.col⟩
  | .UP => ⟨currentPiece.position.row - 1, currentPiece.position.col⟩
  | .LEFT => ⟨currentPiece.position.row, currentPiece.position.col - 1⟩
  | .RIGHT => ⟨currentPiece.position.row, currentPiece.position.col + 1⟩

/-- The `swapProperties(firstIndex, secondIndex, "value")` capability that
`Init` bolts onto the tile array: exchange only the `value` fields of the
pieces at the two list indices. -/
def swapValueFields (l : List (TilePiece T)) (i j : Nat) : List (TilePiece T) :=
  match l[i]?, l[j]? with
  | some pi', some pj' =>
      (l.set i ⟨pi'.position, pj'.value⟩).set j ⟨pj'.position, pi'.value⟩
  | _, _ => l

/-- Source function `SwapPieces` from board.ts: locate the (first) pieces at the two
positions and exchange their `value` fields via `swapProperties`. -/
def SwapPieces (board : Board T) (first second : Position) : Board T :=
  match board.tilePieces.findIdx? (fun e => decide (e.position = first)),
        board.tilePieces.findIdx? (fun e => decide (e.position = second)) with
  | some firstIndex, some secondIndex =>
      { board with tilePieces := swapValueFields board.tilePieces firstIndex secondIndex }
  | _, _ => board

/-- Assignment `FindTilePieceOnPosition(board, p).value = v`, expressed as a
pure update of the piece(s) at position `p`. -/
def setValueAt (board : Board T) (p : Position) (v : Option T) : Board T :=
  { board with
    tilePieces := board.tilePieces.map
      (fun t => if t.position = p then ⟨t.position, v⟩ else t) }

/-- The `forEach` clearing loop of `MatchValuesRemoved` over one list of
matched pieces: each matched piece's value is set to `undefined`. -/
def clearPieces (board : Board T) (pieces : List (TilePiece T)) : Board T :=
  pieces.foldl (fun b t => setValueAt b t.position none) board

/-- Source function `MatchValuesRemoved` from board.ts: clear the row matches, then the
column matches. -/
def MatchValuesRemoved (board : Board T) (matchesRows matchesColumn : List (TilePiece T)) :
    Board T :=
  clearPieces (clearPieces board matchesRows) matchesColumn

/-- The index list of the loop `for (row = fromRow; row > 0; row--)`. -/
def shiftRowIndices (fromRow : Int) : List Int :=
  if fromRow < 1 then [] else ((List.range fromRow.toNat).map (fun k => Int.ofNat (k + 1))).reverse

/-- Source function `ShiftElementsInColumn` from board.ts: walk from `fromRow` up to row 1,
swapping each cell with the one above it. -/
def ShiftElementsInColumn (board : Board T) (fromRow col : Int) : Board T :=
  (shiftRowIndices fromRow).foldl
    (fun b row => SwapPieces b ⟨row, col⟩ ⟨row - 1, col⟩) board

/-- Source function `CheckNeighbours` from board.ts: follow positional adjacency in one
direction, collecting pieces while their value equals `value`.  The TypeScript
recursion has no explicit decreasing argument; it is fuelled here.  Every
recursive call moves to a fresh position holding a distinct tile piece, so a
fuel of `board.tilePieces.length + 1` (what all callers pass) can never be
the limiting factor. -/
def CheckNeighbours (fuel : Nat) (board : Board T) (currentPiece : Option (TilePiece T))
    (matchingPieces : List (TilePiece T)) (value : Option T) (direction : DIRECTION) :
    List (TilePiece T) :=
  match fuel with
  | 0 => matchingPieces
  | fuel + 1 =>
    match currentPiece with
    | none => matchingPieces
    | some piece =>
      if piece.value = value then
        CheckNeighbours fuel board
          (FindTilePieceOnPosition board (FindNextPiecePosition piece direction))
          (matchingPieces ++ [piece]) value direction
      else matchingPieces

/-- Source function `CreateBoardEffectForMatch` from board.ts. -/
def CreateBoardEffectForMatch (matchedPieces : List (TilePiece T)) : MatchResult T :=
  { boardEffects :=
      [BoardEffect.matchEff
        { matched := (match matchedPieces.head? with
            | some t => t.value
            | none => none)
          positions := matchedPieces.map (·.position) }]
    matchesFound := matchedPieces }

/-- Source function `AllNeighboursInRowCheck` from board.ts. -/
def AllNeighboursInRowCheck (board : Board T) (startPiece : TilePiece T) : MatchResult T :=
  let fuel := board.tilePieces.length + 1
  let leftSideElements := CheckNeighbours fuel board
    (FindTilePieceOnPosition board (FindNextPiecePosition startPiece .LEFT))
    [] startPiece.value .LEFT
  let rightSideElements := CheckNeighbours fuel board
    (FindTilePieceOnPosition board (FindNextPiecePosition startPiece .RIGHT))
    [] startPiece.value .RIGHT
  if leftSideElements.length + rightSideElements.length + 1 ≥ 3 then
    CreateBoardEffectForMatch (leftSideElements ++ [startPiece] ++ rightSideElements)
  else
    { boardEffects := [], matchesFound := [] }

/-- Source function `AllNeighboursInColCheck` from board.ts. -/
def AllNeighboursInColCheck (board : Board T) (startPiece : TilePiece T) : MatchResult T :=
  let fuel := board.tilePieces.length + 1
  let topElements := CheckNeighbours fuel board
    (FindTilePieceOnPosition board (FindNextPiecePosition startPiece .UP))
    [] startPiece.value .UP
  let downElements := CheckNeighbours fuel board
    (FindTilePieceOnPosition board (FindNextPiecePosition startPiece .DOWN))
    [] startPiece.value .DOWN
  if topElements.length + downElements.length + 1 ≥ 3 then
    CreateBoardEffectForMatch (topElements ++ [startPiece] ++ downElements)
  else
    { boardEffects := [], matchesFound := [] }

/-- The shared inner loop of `FindAllRowMatches` / `FindAllColumnMatches`:
walk the tile pieces of one line, skipping any piece whose value was already
pushed onto `checkedValues` during this line's scan, and accumulate the
results of `check` on each explored piece. -/
def LineScanAux (check : TilePiece T → MatchResult T) :
    List (TilePiece T) → List (Option T) → MatchResult T → MatchResult T
  | [], _, acc => acc
  | element :: rest, checkedValues, acc =>
    if element.value ∈ checkedValues then
      LineScanAux check rest checkedValues acc
    else
      let result := check element
      LineScanAux check rest (checkedValues ++ [element.value])
        { matchesFound := acc.matchesFound ++ result.matchesFound
          boardEffects := acc.boardEffects ++ result.boardEffects }

/-- Source function `FindAllRowMatches` from board.ts: rows in increasing order, fresh
`checkedValues` per row, accumulating matches and effects across rows. -/
def FindAllRowMatches (board : Board T) : MatchResult T :=
  (loopRange board.height).foldl
    (fun acc i =>
      LineScanAux (AllNeighboursInRowCheck board) (FindAllTilePiecesInRow board i) [] acc)
    { boardEffects := [], matchesFound := [] }

/-- Source function `FindAllColumnMatches` from board.ts: columns scanned from `width` down
to `0` inclusive, fresh `checkedValues` per column. -/
def FindAllColumnMatches (board : Board T) : MatchResult T :=
  (colLoopIndices board.width).foldl
    (fun acc i =>
      LineScanAux (AllNeighboursInColCheck board) (FindAllTilePiecesInColumn board i) [] acc)
    { boardEffects := [], matchesFound := [] }

/-- Source function `IsMoveLegal` from board.ts: bounds check, same-tile check, shared
row-or-column check, then a trial swap followed by a match scan.  The source
performs the trial swap in place and swaps back afterwards; in this pure
embedding the trial board is local, and the involutivity of the restoring
swap is proved separately. -/
def IsMoveLegal (board : Board T) (originalPosition newPosition : Position) : Bool :=
  if ¬ IsPositionOutsideBoard board originalPosition ∨
     ¬ IsPositionOutsideBoard board newPosition then
    false
  else if originalPosition.col = newPosition.col ∧ originalPosition.row = newPosition.row then
    false
  else if originalPosition.col ≠ newPosition.col ∧ originalPosition.row ≠ newPosition.row then
    false
  else
    let trial := SwapPieces board originalPosition newPosition
    let matchesInRows := FindAllRowMatches trial
    let matchesInColumns := FindAllColumnMatches trial
    if matchesInRows.matchesFound.isEmpty ∧ matchesInColumns.matchesFound.isEmpty then
      false
    else
      true

/-- Source function `canMove` from board.ts. -/
def canMove (board : Board T) (originalPosition newPosition : Position) : Bool :=
  IsMoveLegal board originalPosition newPosition

/-- Source function `tilePiece` from board.ts: the public tile-value read. -/
def tilePiece (board : Board T) (p : Position) : Option T :=
  if ¬ IsPositionOutsideBoard board p then
    none
  else
    match FindTilePieceOnPosition board p with
    | some t => t.value
    | none => none

/-- One cell of the gravity/refill scan of `UpdateBoard`: if the tile piece
at `(row, col)` has an `undefined` value, shift its column down and refill
the vacated top slot from the supplier.  `none` models the TypeScript crash
on a missing tile piece and the supplier throwing on exhaustion. -/
def RefillCell (board : Board T) (gen : List T) (row col : Int) :
    Option (Board T × List T) :=
  match FindTilePieceOnPosition board ⟨row, col⟩ with
  | none => none
  | some foundElement =>
    if foundElement.value = none then
      let shifted := ShiftElementsInColumn board foundElement.position.row foundElement.position.col
      match gen with
      | [] => none
      | g :: gs => some (setValueAt shifted ⟨0, foundElement.position.col⟩ (some g), gs)
    else
      some (board, gen)

/-- The row-major cell index list of `UpdateBoard`'s double loop. -/
def scanCells (height width : Int) : List (Int × Int) :=
  ((loopRange height).map (fun row => (loopRange width).map (fun col => (row, col)))).flatten

/-- The row-major double loop of `UpdateBoard` over all cells. -/
def UpdateScan (board : Board T) (gen : List T) : Option (Board T × List T) :=
  (scanCells board.height board.width).foldl
    (fun acc rc => acc.bind (fun bg => RefillCell bg.1 bg.2 rc.1 rc.2))
    (some (board, gen))

/-- The `CheckBoard`/`UpdateBoard` mutual recursion from board.ts, flattened
into one fuelled loop.  Each pass pushes the row-match effects, then the
column-match effects; if any match was found it clears the matched pieces,
runs the gravity/refill scan, pushes one `Refill` effect (carrying the board
after the refill) and loops.  `genFail` models the supplier throwing;
`fuelFail` is the artificial fuel bound, proved unreachable for the fuel
`move` passes on grid-shaped boards. -/
def CheckBoardLoop (fuel : Nat) (board : Board T) (gen : List T)
    (effects : List (BoardEffect T)) : CascadeResult T :=
  match fuel with
  | 0 => .fuelFail
  | fuel + 1 =>
    let rowMatchResults := FindAllRowMatches board
    let columnMatchResults := FindAllColumnMatches board
    let effects1 := effects ++ rowMatchResults.boardEffects ++ columnMatchResults.boardEffects
    if rowMatchResults.matchesFound.isEmpty ∧ columnMatchResults.matchesFound.isEmpty then
      .ok board gen effects1
    else
      let cleared := MatchValuesRemoved board rowMatchResults.matchesFound columnMatchResults.matchesFound
      match UpdateScan cleared gen with
      | none => .genFail
      | some (board2, gen2) => CheckBoardLoop fuel board2 gen2 (effects1 ++ [.refill board2])

/-- Source function `move` from board.ts: validate, swap, run the cascade.  The supplier is
the list `gen`; the returned list is what remains of it.  `none` models the
TypeScript call throwing (supplier exhaustion mid-cascade). -/
def move (gen : List T) (board : Board T) (originalPosition newPosition : Position) :
    Option (MoveResult T × List T) :=
  if IsMoveLegal board originalPosition newPosition then
    let swapped := SwapPieces board originalPosition newPosition
    match CheckBoardLoop (gen.length + 1) swapped gen [] with
    | .ok board2 gen2 effs => some ({ board := board2, boardEffects := effs }, gen2)
    | _ => none
  else
    some ({ board := board, boardEffects := [] }, gen)

/-- Source function `Init` from board.ts: build the row-major tile list, pulling one supplier
value per cell; `none` when the (finite) supplier runs out. -/
def InitAux (positions : List Position) (gen : List T) :
    Option (List (TilePiece T) × List T) :=
  match positions, gen with
  | [], rest => some ([], rest)
  | _ :: _, [] => none
  | p :: ps, g :: gs =>
    match InitAux ps gs with
    | none => none
    | some (pieces, rest) => some (⟨p, some g⟩ :: pieces, rest)

/-- Source function `create` from board.ts. -/
def create (gen : List T) (width height : Int) : Option (Board T × List T) :=
  match InitAux (allPositions height width) gen with
  | none => none
  | some (pieces, rest) => some ({ width := width, height := height, tilePieces := pieces }, rest)

/-- A board whose tile pieces sit exactly at the row-major grid positions,
in creation order — the shape every board built by `create` has and every
engine operation preserves. -/
def IsGridBoard (board : Board T) : Prop :=
  board.tilePieces.map (·.position) = allPositions board.height board.width

instance (board : Board T) : Decidable (IsGridBoard board) := by
  unfold IsGridBoard; infer_instance

/-- The index list of the valid columns only, scanned in the same
(descending) direction as the source's column scan.  Refinement reference
for the spec's description of the column-scan boundary: "scanning only the
valid columns `width - 1` down to `0`". -/
def validColIndices (width : Int) : List Int :=
  if width ≤ 0 then [] else ((List.range width.toNat).map Int.ofNat).reverse

/-- Refinement reference, following the spec's words: the column-axis match
scan restricted to the valid columns `width - 1` down to `0` (without the
extra iteration at column index `width`). -/
def FindAllColumnMatchesSpec (board : Board T) : MatchResult T :=
  (validColIndices board.width).foldl
    (fun acc i =>
      LineScanAux (AllNeighboursInColCheck board) (FindAllTilePiecesInColumn board i) [] acc)
    { boardEffects := [], matchesFound := [] }

/-- The scan of a single row (inner loop of `FindAllRowMatches` with a fresh
`checkedValues` and an empty accumulator). -/
def lineScanOfRow (board : Board T) (i : Int) : MatchResult T :=
  LineScanAux (AllNeighboursInRowCheck board) (FindAllTilePiecesInRow board i) []
    { boardEffects := [], matchesFound := [] }

/-- The matched values of the `Match` effects in an effect list, in order. -/
def effectMatchedValues (effs : List (BoardEffect T)) : List (Option T) :=
  effs.filterMap (fun e => match e with
    | .matchEff m => some m.matched
    | .refill _ => none)

/-- Whether an effect is a `Match` effect. -/
def IsMatchEffect (e : BoardEffect T) : Prop :=
  ∃ m, e = BoardEffect.matchEff m

/-- Boolean test for a `Refill` effect. -/
def isRefillEffect (e : BoardEffect T) : Bool :=
  match e with
  | .refill _ => true
  | .matchEff _ => false

/-- The per-pass structure of a cascade's effect log: each pass contributes
its row-match effects, then its column-match effects, then (when a match was
found) exactly one `Refill`; a quiescent pass contributes nothing. -/
inductive PassStructured : Board T → List (BoardEffect T) → Prop where
  | done (b : Board T) :
      (FindAllRowMatches b).matchesFound = [] →
      (FindAllColumnMatches b).matchesFound = [] →
      PassStructured b []
  | step (b b' : Board T) (rest : List (BoardEffect T)) :
      ¬((FindAllRowMatches b).matchesFound = [] ∧ (FindAllColumnMatches b).matchesFound = []) →
      (∀ e ∈ (FindAllRowMatches b).boardEffects, IsMatchEffect e) →
      (∀ e ∈ (FindAllColumnMatches b).boardEffects, IsMatchEffect e) →
      PassStructured b' rest →
      PassStructured b
        ((FindAllRowMatches b).boardEffects ++ (FindAllColumnMatches b).boardEffects ++
          (BoardEffect.refill b' :: rest))

/-- The position list of a `Match` record is a same-row run of `n ≥ 3`
cells with strictly increasing consecutive columns. -/
def IsIncreasingRowRun (m : MatchRec T) : Prop :=
  ∃ r c n, 3 ≤ n ∧ m.positions = (List.range n).map (fun i => Position.mk r (c + Int.ofNat i))

/-- The position list of a `Match` record is a same-column run of `n ≥ 3`
cells with strictly increasing consecutive rows. -/
def IsIncreasingColRun (m : MatchRec T) : Prop :=
  ∃ r c n, 3 ≤ n ∧ m.positions = (List.range n).map (fun i => Position.mk (r + Int.ofNat i) c)

/-- Every position listed in the match record holds (in `board`) the tile
value recorded in the `matched` field. -/
def MatchSharesValue (board : Board T) (m : MatchRec T) : Prop :=
  ∀ p ∈ m.positions, ∃ t, FindTilePieceOnPosition board p = some t ∧ t.value = m.matched

/-- Two boards with the same dimensions and the same tile positions in the
same order (only values may differ) — the frame every engine operation
preserves. -/
def SameSkeleton (b b' : Board T) : Prop :=
  b'.width = b.width ∧ b'.height = b.height ∧
    b'.tilePieces.map (·.position) = b.tilePieces.map (·.position)

/-- The cell at position `p` exists and currently holds an `undefined`
value. -/
def ValueNoneAt (board : Board T) (p : Position) : Prop :=
  ∃ t, FindTilePieceOnPosition board p = some t ∧ t.value = none

/-- The effects contributed by one line's scan (specification companion of
`LineScanAux`, without the threaded accumulator). -/
def lineScanEffects (check : TilePiece T → MatchResult T) :
    List (TilePiece T) → List (Option T) → List (BoardEffect T)
  | [], _ => []
  | e :: rest, checked =>
    if e.value ∈ checked then lineScanEffects check rest checked
    else (check e).boardEffects ++ lineScanEffects check rest (checked ++ [e.value])

/-- The matched pieces contributed by one line's scan (specification
companion of `LineScanAux`). -/
def lineScanMatches (check : TilePiece T → MatchResult T) :
    List (TilePiece T) → List (Option T) → List (TilePiece T)
  | [], _ => []
  | e :: rest, checked =>
    if e.value ∈ checked then lineScanMatches check rest checked
    else (check e).matchesFound ++ lineScanMatches check rest (checked ++ [e.value])

/- ------------------------- concrete fixtures ------------------------- -/

/-- The 3×4 fixture of the spec's concrete scenario (and of the repository's
"replacing tiles" tests): row-major fill `A,B,A / D,B,C / D,A,C / C,D,D`. -/
def c9board : Board Char :=
  { width := 3, height := 4, tilePieces :=
    [⟨⟨0,0⟩, some 'A'⟩, ⟨⟨0,1⟩, some 'B'⟩, ⟨⟨0,2⟩, some 'A'⟩,
     ⟨⟨1,0⟩, some 'D'⟩, ⟨⟨1,1⟩, some 'B'⟩, ⟨⟨1,2⟩, some 'C'⟩,
     ⟨⟨2,0⟩, some 'D'⟩, ⟨⟨2,1⟩, some 'A'⟩, ⟨⟨2,2⟩, some 'C'⟩,
     ⟨⟨3,0⟩, some 'C'⟩, ⟨⟨3,1⟩, some 'D'⟩, ⟨⟨3,2⟩, some 'D'⟩] }

/-- The expected final board of the concrete scenario:
`B,C,D / D,B,C / D,B,C / C,D,D`. -/
def c9final : Board Char :=
  { width := 3, height := 4, tilePieces :=
    [⟨⟨0,0⟩, some 'B'⟩, ⟨⟨0,1⟩, some 'C'⟩, ⟨⟨0,2⟩, some 'D'⟩,
     ⟨⟨1,0⟩, some 'D'⟩, ⟨⟨1,1⟩, some 'B'⟩, ⟨⟨1,2⟩, some 'C'⟩,
     ⟨⟨2,0⟩, some 'D'⟩, ⟨⟨2,1⟩, some 'B'⟩, ⟨⟨2,2⟩, some 'C'⟩,
     ⟨⟨3,0⟩, some 'C'⟩, ⟨⟨3,1⟩, some 'D'⟩, ⟨⟨3,2⟩, some 'D'⟩] }

/-- The supplier values primed for the concrete scenario. -/
def c9supply : List Char := ['B', 'C', 'D']

/-- The full move result of the concrete scenario. -/
def c9res : MoveResult Char :=
  { board := c9final,
    boardEffects := [.matchEff ⟨some 'A', [⟨0,0⟩, ⟨0,1⟩, ⟨0,2⟩]⟩, .refill c9final] }

/-- A one-row board `A,A,A,B,A,A,A` (width 7, height 1): two positionally
separate runs of the same value `A` in the same row. -/
def rowBoardAAABAAA : Board Char :=
  { width := 7, height := 1, tilePieces :=
    [⟨⟨0,0⟩, some 'A'⟩, ⟨⟨0,1⟩, some 'A'⟩, ⟨⟨0,2⟩, some 'A'⟩, ⟨⟨0,3⟩, some 'B'⟩,
     ⟨⟨0,4⟩, some 'A'⟩, ⟨⟨0,5⟩, some 'A'⟩, ⟨⟨0,6⟩, some 'A'⟩] }

/-- A two-row board `A,A,A / A,A,A` (width 3, height 2): the same value in
two different rows. -/
def twoRowBoardAAA : Board Char :=
  { width := 3, height := 2, tilePieces :=
    [⟨⟨0,0⟩, some 'A'⟩, ⟨⟨0,1⟩, some 'A'⟩, ⟨⟨0,2⟩, some 'A'⟩,
     ⟨⟨1,0⟩, some 'A'⟩, ⟨⟨1,1⟩, some 'A'⟩, ⟨⟨1,2⟩, some 'A'⟩] }

/- ============================= theorems ============================= -/

theorem mem_loopRange {bound i : Int} : i ∈ loopRange bound ↔ 0 ≤ i ∧ i < bound := by
  unfold loopRange
  simp only [List.mem_map, List.mem_range]
  constructor
  · rintro ⟨k, hk, rfl⟩
    exact ⟨Int.ofNat_nonneg k, Int.lt_toNat.mp hk⟩
  · rintro ⟨h0, h1⟩
    refine ⟨i.toNat, ?_, Int.toNat_of_nonneg h0⟩
    rw [← Int.toNat_of_nonneg h0] at h1
    exact Int.lt_toNat.mpr h1

theorem mem_allPositions {h w : Int} {p : Position} :
    p ∈ allPositions h w ↔ 0 ≤ p.row ∧ p.row < h ∧ 0 ≤ p.col ∧ p.col < w := by
  unfold allPositions
  simp only [List.mem_flatten, List.mem_map]
  constructor
  · rintro ⟨l, ⟨r, hr, rfl⟩, hp⟩
    simp only [List.mem_map] at hp
    obtain ⟨c, hc, rfl⟩ := hp
    obtain ⟨hr0, hr1⟩ := mem_loopRange.mp hr
    obtain ⟨hc0, hc1⟩ := mem_loopRange.mp hc
    exact ⟨hr0, hr1, hc0, hc1⟩
  · rintro ⟨h1, h2, h3, h4⟩
    refine ⟨(loopRange w).map (fun c => Position.mk p.row c), ⟨p.row, mem_loopRange.mpr ⟨h1, h2⟩, rfl⟩, ?_⟩
    simp only [List.mem_map]
    exact ⟨p.col, mem_loopRange.mpr ⟨h3, h4⟩, rfl⟩

theorem isPositionOutsideBoard_iff (board : Board T) (p : Position) :
    IsPositionOutsideBoard board p = true ↔
      0 ≤ p.row ∧ p.row < board.height ∧ 0 ≤ p.col ∧ p.col < board.width := by
  unfold IsPositionOutsideBoard
  split_ifs with h1 h2 <;> simp <;> omega

/-- Every tile piece of a grid-shaped board sits at an in-range position. -/
theorem mem_position_bounds {board : Board T} (hg : IsGridBoard board)
    {t : TilePiece T} (ht : t ∈ board.tilePieces) :
    0 ≤ t.position.row ∧ t.position.row < board.height ∧
      0 ≤ t.position.col ∧ t.position.col < board.width := by
  have : t.position ∈ board.tilePieces.map (·.position) := List.mem_map_of_mem _ ht
  rw [hg] at this
  exact mem_allPositions.mp this

theorem list_set_eq_self {α : Type} {l : List α} {i : Nat} {a : α}
    (h : l[i]? = some a) : l.set i a = l := by
  induction l generalizing i with
  | nil => simp at h
  | cons x xs ih =>
    cases i with
    | zero => simp at h; simp [List.set, h]
    | succ n =>
      simp only [List.getElem?_cons_succ] at h
      simp [List.set, ih h]

theorem tilePiece_eta (t : TilePiece T) : (⟨t.position, t.value⟩ : TilePiece T) = t := rfl

theorem swapValueFields_swapValueFields (l : List (TilePiece T)) (i j : Nat) :
    swapValueFields (swapValueFields l i j) i j = l := by
  unfold swapValueFields
  cases hi : l[i]? with
  | none => simp [hi]
  | some pi' =>
    cases hj : l[j]? with
    | none => simp [hi, hj]
    | some pj' =>
      simp only [hi, hj]
      obtain ⟨hilt, -⟩ := List.getElem?_eq_some.mp hi
      obtain ⟨hjlt, -⟩ := List.getElem?_eq_some.mp hj
      by_cases hij : i = j
      · subst hij
        rw [hi] at hj
        injection hj with hj
        subst hj
        have hl' : (l.set i ⟨pi'.position, pi'.value⟩).set i ⟨pi'.position, pi'.value⟩ = l := by
          rw [List.set_set, tilePiece_eta, list_set_eq_self hi]
        rw [hl']
        simp only [hi]
        exact hl'
      · have h1 : ((l.set i ⟨pi'.position, pj'.value⟩).set j ⟨pj'.position, pi'.value⟩)[i]?
            = some ⟨pi'.position, pj'.value⟩ := by
          rw [List.getElem?_set_ne (Ne.symm hij), List.getElem?_set_eq hilt]
        have h2 : ((l.set i ⟨pi'.position, pj'.value⟩).set j ⟨pj'.position, pi'.value⟩)[j]?
            = some ⟨pj'.position, pi'.value⟩ := by
          rw [List.getElem?_set_eq]
          rw [List.length_set]
          exact hjlt
        simp only [h1, h2]
        apply List.ext_getElem?
        intro n
        by_cases hni : n = i
        · subst hni
          rw [List.getElem?_set_ne (Ne.symm hij),
            List.getElem?_set_eq (by simpa using hilt), hi, tilePiece_eta]
        · by_cases hnj : n = j
          · subst hnj
            rw [List.getElem?_set_eq (by simpa using hjlt), hj, tilePiece_eta]
          · rw [List.getElem?_set_ne (fun hc => hnj hc.symm),
              List.getElem?_set_ne (fun hc => hni hc.symm),
              List.getElem?_set_ne (fun hc => hnj hc.symm),
              List.getElem?_set_ne (fun hc => hni hc.symm)]

theorem swapValueFields_map_position (l : List (TilePiece T)) (i j : Nat) :
    (swapValueFields l i j).map (·.position) = l.map (·.position) := by
  unfold swapValueFields
  cases hi : l[i]? with
  | none => simp
  | some pi' =>
    cases hj : l[j]? with
    | none => simp
    | some pj' =>
      simp only
      have hpi : (l.map (·.position))[i]? = some pi'.position := by
        rw [List.getElem?_map, hi]; rfl
      have hpj : (l.map (·.position))[j]? = some pj'.position := by
        rw [List.getElem?_map, hj]; rfl
      rw [List.map_set, List.map_set, list_set_eq_self hpi, list_set_eq_self hpj]

theorem swapValueFields_length (l : List (TilePiece T)) (i j : Nat) :
    (swapValueFields l i j).length = l.length := by
  unfold swapValueFields
  cases l[i]? <;> cases l[j]? <;> simp

theorem findIdx?_position_swapValueFields (l : List (TilePiece T)) (i j : Nat) (q : Position) :
    (swapValueFields l i j).findIdx? (fun e => decide (e.position = q)) =
      l.findIdx? (fun e => decide (e.position = q)) := by
  have key : ∀ (l' : List (TilePiece T)),
      l'.findIdx? (fun e => decide (e.position = q)) =
        (l'.map (·.position)).findIdx? (fun p => decide (p = q)) := by
    intro l'
    rw [List.findIdx?_map]
    rfl
  rw [key, key, swapValueFields_map_position]

/-- Claim C4: the trial swap performed inside `canMove`'s validator is always
exactly undone — swapping the same two positions twice restores the board,
for every board and all positions (in or out of bounds, equal or not), so a
`canMove` call leaves the board's tile values identical to what they were. -/
theorem SwapPieces_SwapPieces (board : Board T) (a b : Position) :
    SwapPieces (SwapPieces board a b) a b = board := by
  unfold SwapPieces
  cases hA : board.tilePieces.findIdx? (fun e => decide (e.position = a)) with
  | none =>
    cases hB : board.tilePieces.findIdx? (fun e => decide (e.position = b)) with
    | none => simp only [hA, hB]
    | some j => simp only [hA, hB]
  | some i =>
    cases hB : board.tilePieces.findIdx? (fun e => decide (e.position = b)) with
    | none => simp only [hA, hB]
    | some j =>
      simp only [hA, hB]
      rw [findIdx?_position_swapValueFields, findIdx?_position_swapValueFields]
      simp only [hA, hB]
      rw [swapValueFields_swapValueFields]

/-- Claim C3: `canMove` fails closed — it returns `false` (and, being a
total function, cannot throw) whenever the two positions are equal, or they
share neither a row nor a column, or either position is out of bounds
(`IsPositionOutsideBoard` returning `false` means the position is outside
the board; the source's boolean is inverted relative to its name). -/
theorem canMove_fails_closed (board : Board T) (a b : Position)
    (h : a = b ∨ (a.row ≠ b.row ∧ a.col ≠ b.col) ∨
      IsPositionOutsideBoard board a = false ∨ IsPositionOutsideBoard board b = false) :
    canMove board a b = false := by
  unfold canMove IsMoveLegal
  rcases h with rfl | ⟨h1, h2⟩ | h | h
  · simp
  · simp [h1, h2]
  · simp [h]
  · simp [h]

/-- Witness for C3 at a concrete input (same-position swap on the 3×4
fixture board). -/
theorem canMove_fails_closed_witness :
    canMove c9board ⟨0, 0⟩ ⟨0, 0⟩ = false :=
  canMove_fails_closed c9board ⟨0, 0⟩ ⟨0, 0⟩ (Or.inl rfl)

/-- Counterexample to claim C5 as stated: on the one-row board
`A,A,A,B,A,A,A` the row scan reports exactly ONE match of `A` (columns
0–2), not two — the later, positionally separate run of the same value `A`
at columns 4–6 is skipped by the per-row value deduplication, because `A`
was already pushed onto `checkedValues` when column 0 was explored. -/
theorem rowScan_dedup_counterexample :
    (FindAllRowMatches rowBoardAAABAAA).boardEffects =
      [BoardEffect.matchEff ⟨some 'A', [⟨0, 0⟩, ⟨0, 1⟩, ⟨0, 2⟩]⟩] ∧
    ¬((FindAllRowMatches rowBoardAAABAAA).boardEffects.length = 2) := by
  exact ⟨by decide, by decide⟩

theorem loopRange_nodup (bound : Int) : (loopRange bound).Nodup :=
  (List.nodup_range _).map (fun _ _ h => Int.ofNat_inj.mp h)

theorem allPositions_nodup (h w : Int) : (allPositions h w).Nodup := by
  unfold allPositions
  rw [List.nodup_flatten]
  constructor
  · intro l hl
    rw [List.mem_map] at hl
    obtain ⟨r, -, rfl⟩ := hl
    exact (loopRange_nodup w).map (fun c1 c2 hc => by
      injection hc)
  · refine List.Pairwise.map _ ?_ (loopRange_nodup h)
    intro r1 r2 hne p hp1 hp2
    rw [List.mem_map] at hp1 hp2
    obtain ⟨c1, -, rfl⟩ := hp1
    obtain ⟨c2, -, hc⟩ := hp2
    injection hc with h1 h2
    exact hne h1.symm

theorem grid_positions_nodup {board : Board T} (hg : IsGridBoard board) :
    (board.tilePieces.map (·.position)).Nodup := by
  rw [hg]; exact allPositions_nodup _ _

theorem find?_eq_some_position {board : Board T} {p : Position} {t : TilePiece T}
    (h : FindTilePieceOnPosition board p = some t) :
    t.position = p ∧ t ∈ board.tilePieces := by
  unfold FindTilePieceOnPosition at h
  exact ⟨by simpa using List.find?_some h, List.mem_of_find?_eq_some h⟩

theorem find?_position_of_mem {l : List (TilePiece T)} (hnd : (l.map (·.position)).Nodup)
    {t : TilePiece T} (ht : t ∈ l) :
    l.find? (fun e => decide (e.position = t.position)) = some t := by
  induction l with
  | nil => cases ht
  | cons x xs ih =>
    rw [List.map_cons, List.nodup_cons] at hnd
    rcases List.mem_cons.mp ht with rfl | htl
    · simp [List.find?]
    · have hxp : ¬(x.position = t.position) := fun hc =>
        hnd.1 (hc ▸ List.mem_map_of_mem _ htl)
      rw [List.find?_cons_of_neg _ (by simpa using hxp)]
      exact ih hnd.2 htl

theorem find?_self_of_mem_grid {board : Board T} (hg : IsGridBoard board)
    {t : TilePiece T} (ht : t ∈ board.tilePieces) :
    FindTilePieceOnPosition board t.position = some t :=
  find?_position_of_mem (grid_positions_nodup hg) ht

theorem find?_inBounds_grid {board : Board T} (hg : IsGridBoard board) {p : Position}
    (h : IsPositionOutsideBoard board p = true) :
    ∃ t, FindTilePieceOnPosition board p = some t ∧ t.position = p ∧ t ∈ board.tilePieces := by
  have hp : p ∈ board.tilePieces.map (·.position) := by
    rw [hg]
    have hb := (isPositionOutsideBoard_iff board p).mp h
    exact mem_allPositions.mpr hb
  rw [List.mem_map] at hp
  obtain ⟨t, ht, hpt⟩ := hp
  refine ⟨t, ?_, hpt, ht⟩
  have := find?_self_of_mem_grid hg ht
  rwa [hpt] at this

theorem find?_outside_grid {board : Board T} (hg : IsGridBoard board) {p : Position}
    (h : IsPositionOutsideBoard board p = false) :
    FindTilePieceOnPosition board p = none := by
  unfold FindTilePieceOnPosition
  rw [List.find?_eq_none]
  intro t ht hc
  rw [decide_eq_true_eq] at hc
  have hb := mem_position_bounds hg ht
  have : IsPositionOutsideBoard board p = true :=
    (isPositionOutsideBoard_iff board p).mpr (hc ▸ hb)
  rw [h] at this
  cases this

/-- Claim C8: the public tile read `tilePiece` returns `none` (absent) on
every out-of-bounds position of any board — and, being total, never throws —
while on every in-bounds position of a grid-shaped board it returns exactly
the value of the tile piece stored at that position.
(`IsPositionOutsideBoard board p = false` means `p` is out of bounds.) -/
theorem tilePiece_spec (board : Board T) (p : Position) :
    (IsPositionOutsideBoard board p = false → tilePiece board p = none) ∧
    (IsGridBoard board → IsPositionOutsideBoard board p = true →
      ∃ t, FindTilePieceOnPosition board p = some t ∧ t.position = p ∧
        tilePiece board p = t.value) := by
  constructor
  · intro h
    unfold tilePiece
    rw [if_pos (by simp [h])]
  · intro hg h
    obtain ⟨t, hf, hp, -⟩ := find?_inBounds_grid hg h
    refine ⟨t, hf, hp, ?_⟩
    unfold tilePiece
    rw [if_neg (by simp [h]), hf]

/-- Witness for C8: on the 3×4 fixture, the read at `(0,-1)` is absent and
the read at `(0,0)` returns the stored tile's value. -/
theorem tilePiece_spec_witness :
    tilePiece c9board ⟨0, -1⟩ = none ∧
    ∃ t, FindTilePieceOnPosition c9board ⟨0, 0⟩ = some t ∧ t.position = ⟨0, 0⟩ ∧
      tilePiece c9board ⟨0, 0⟩ = t.value :=
  ⟨(tilePiece_spec c9board ⟨0, -1⟩).1 (by decide),
   (tilePiece_spec c9board ⟨0, 0⟩).2 (by decide) (by decide)⟩

theorem colLoop_eq_cons (w : Int) (hw : 0 ≤ w) :
    colLoopIndices w = w :: validColIndices w := by
  unfold colLoopIndices validColIndices
  rw [if_neg (not_lt.mpr hw)]
  by_cases h0 : w ≤ 0
  · have hw0 : w = 0 := le_antisymm h0 hw
    subst hw0
    simp
    decide
  · rw [if_neg h0, List.range_succ, List.map_append, List.reverse_append]
    simp [Int.toNat_of_nonneg hw]

theorem tilesInColumn_out_of_range {board : Board T} (hg : IsGridBoard board) {j : Int}
    (hj : board.width ≤ j) : FindAllTilePiecesInColumn board j = [] := by
  unfold FindAllTilePiecesInColumn
  rw [List.filter_eq_nil_iff]
  intro t ht
  have hb := mem_position_bounds hg ht
  simp only [decide_eq_true_eq]
  omega

/-- Claim C7: the column scan visits columns `width` down to `0` inclusive;
on a grid-shaped board the extra index `width` holds no tile pieces, so that
iteration contributes nothing and the whole scan equals the scan over the
valid columns `width - 1` down to `0` only. -/
theorem columnScan_boundary (board : Board T) (hg : IsGridBoard board) :
    FindAllTilePiecesInColumn board board.width = [] ∧
    FindAllColumnMatches board = FindAllColumnMatchesSpec board := by
  have hcol := tilesInColumn_out_of_range hg (le_refl board.width)
  refine ⟨hcol, ?_⟩
  unfold FindAllColumnMatches FindAllColumnMatchesSpec
  by_cases hw : 0 ≤ board.width
  · rw [colLoop_eq_cons _ hw, List.foldl_cons, hcol]
    rfl
  · have h1 : colLoopIndices board.width = [] := by
      unfold colLoopIndices
      rw [if_pos (by omega)]
    have h2 : validColIndices board.width = [] := by
      unfold validColIndices
      rw [if_pos (by omega)]
    rw [h1, h2]

/-- Witness for C7 at the concrete 3×4 fixture board. -/
theorem columnScan_boundary_witness :
    FindAllTilePiecesInColumn c9board c9board.width = [] ∧
    FindAllColumnMatches c9board = FindAllColumnMatchesSpec c9board :=
  columnScan_boundary c9board (by decide)

theorem lineScanAux_eq (check : TilePiece T → MatchResult T) (elems : List (TilePiece T)) :
    ∀ (checked : List (Option T)) (acc : MatchResult T),
      LineScanAux check elems checked acc =
        { boardEffects := acc.boardEffects ++ lineScanEffects check elems checked
          matchesFound := acc.matchesFound ++ lineScanMatches check elems checked } := by
  induction elems with
  | nil => intro checked acc; simp [LineScanAux, lineScanEffects, lineScanMatches]
  | cons e rest ih =>
    intro checked acc
    by_cases hmem : e.value ∈ checked
    · simp only [LineScanAux, lineScanEffects, lineScanMatches, if_pos hmem]
      exact ih checked acc
    · simp only [LineScanAux, lineScanEffects, lineScanMatches, if_neg hmem]
      rw [ih]
      simp [List.append_assoc]

theorem checkRow_nil_iff (board : Board T) (s : TilePiece T) :
    (AllNeighboursInRowCheck board s).boardEffects = [] ↔
      (AllNeighboursInRowCheck board s).matchesFound = [] := by
  unfold AllNeighboursInRowCheck
  dsimp only
  split_ifs with h
  · unfold CreateBoardEffectForMatch
    simp
  · simp

theorem checkCol_nil_iff (board : Board T) (s : TilePiece T) :
    (AllNeighboursInColCheck board s).boardEffects = [] ↔
      (AllNeighboursInColCheck board s).matchesFound = [] := by
  unfold AllNeighboursInColCheck
  dsimp only
  split_ifs with h
  · unfold CreateBoardEffectForMatch
    simp
  · simp

theorem lineScan_nil_iff (check : TilePiece T → MatchResult T)
    (hch : ∀ e, (check e).boardEffects = [] ↔ (check e).matchesFound = [])
    (elems : List (TilePiece T)) :
    ∀ checked,
      (lineScanEffects check elems checked = [] ↔ lineScanMatches check elems checked = []) := by
  induction elems with
  | nil => intro checked; simp [lineScanEffects, lineScanMatches]
  | cons e rest ih =>
    intro checked
    by_cases hmem : e.value ∈ checked
    · simp only [lineScanEffects, lineScanMatches, if_pos hmem]
      exact ih checked
    · simp only [lineScanEffects, lineScanMatches, if_neg hmem]
      rw [List.append_eq_nil, List.append_eq_nil]
      exact and_congr (hch e) (ih (checked ++ [e.value]))

theorem finderFold_eq (check : TilePiece T → MatchResult T) (line : Int → List (TilePiece T))
    (idxs : List Int) :
    ∀ acc : MatchResult T,
      idxs.foldl (fun acc i => LineScanAux check (line i) [] acc) acc =
        { boardEffects :=
            acc.boardEffects ++ (idxs.map (fun i => lineScanEffects check (line i) [])).flatten
          matchesFound :=
            acc.matchesFound ++ (idxs.map (fun i => lineScanMatches check (line i) [])).flatten } := by
  induction idxs with
  | nil => intro acc; simp
  | cons r rest ih =>
    intro acc
    rw [List.foldl_cons, lineScanAux_eq, ih]
    simp [List.append_assoc]

theorem findAllRowMatches_eq (board : Board T) :
    FindAllRowMatches board =
      { boardEffects := ((loopRange board.height).map (fun i =>
          lineScanEffects (AllNeighboursInRowCheck board) (FindAllTilePiecesInRow board i) [])).flatten
        matchesFound := ((loopRange board.height).map (fun i =>
          lineScanMatches (AllNeighboursInRowCheck board) (FindAllTilePiecesInRow board i) [])).flatten } := by
  unfold FindAllRowMatches
  rw [finderFold_eq]
  simp

theorem findAllColumnMatches_eq (board : Board T) :
    FindAllColumnMatches board =
      { boardEffects := ((colLoopIndices board.width).map (fun i =>
          lineScanEffects (AllNeighboursInColCheck board) (FindAllTilePiecesInColumn board i) [])).flatten
        matchesFound := ((colLoopIndices board.width).map (fun i =>
          lineScanMatches (AllNeighboursInColCheck board) (FindAllTilePiecesInColumn board i) [])).flatten } := by
  unfold FindAllColumnMatches
  rw [finderFold_eq]
  simp

theorem rowMatches_nil_iff (board : Board T) :
    (FindAllRowMatches board).boardEffects = [] ↔
      (FindAllRowMatches board).matchesFound = [] := by
  rw [findAllRowMatches_eq]
  simp only [List.flatten_eq_nil_iff]
  constructor <;> intro h l hl <;> rw [List.mem_map] at hl <;> obtain ⟨i, hi, rfl⟩ := hl
  · exact (lineScan_nil_iff _ (checkRow_nil_iff board) _ []).mp
      (h _ (List.mem_map_of_mem _ hi))
  · exact (lineScan_nil_iff _ (checkRow_nil_iff board) _ []).mpr
      (h _ (List.mem_map_of_mem _ hi))

theorem colMatches_nil_iff (board : Board T) :
    (FindAllColumnMatches board).boardEffects = [] ↔
      (FindAllColumnMatches board).matchesFound = [] := by
  rw [findAllColumnMatches_eq]
  simp only [List.flatten_eq_nil_iff]
  constructor <;> intro h l hl <;> rw [List.mem_map] at hl <;> obtain ⟨i, hi, rfl⟩ := hl
  · exact (lineScan_nil_iff _ (checkCol_nil_iff board) _ []).mp
      (h _ (List.mem_map_of_mem _ hi))
  · exact (lineScan_nil_iff _ (checkCol_nil_iff board) _ []).mpr
      (h _ (List.mem_map_of_mem _ hi))

theorem checkRow_effects_matchEff (board : Board T) (s : TilePiece T) :
    ∀ e ∈ (AllNeighboursInRowCheck board s).boardEffects, IsMatchEffect e := by
  unfold AllNeighboursInRowCheck
  dsimp only
  split_ifs with h
  · unfold CreateBoardEffectForMatch
    intro e he
    simp only [List.mem_singleton] at he
    exact ⟨_, he⟩
  · intro e he
    simp at he

theorem checkCol_effects_matchEff (board : Board T) (s : TilePiece T) :
    ∀ e ∈ (AllNeighboursInColCheck board s).boardEffects, IsMatchEffect e := by
  unfold AllNeighboursInColCheck
  dsimp only
  split_ifs with h
  · unfold CreateBoardEffectForMatch
    intro e he
    simp only [List.mem_singleton] at he
    exact ⟨_, he⟩
  · intro e he
    simp at he

theorem lineScan_effects_matchEff (check : TilePiece T → MatchResult T)
    (hch : ∀ s, ∀ e ∈ (check s).boardEffects, IsMatchEffect e)
    (elems : List (TilePiece T)) :
    ∀ checked, ∀ e ∈ lineScanEffects check elems checked, IsMatchEffect e := by
  induction elems with
  | nil => intro checked e he; simp [lineScanEffects] at he
  | cons x rest ih =>
    intro checked e he
    by_cases hmem : x.value ∈ checked
    · rw [lineScanEffects, if_pos hmem] at he
      exact ih checked e he
    · rw [lineScanEffects, if_neg hmem] at he
      rcases List.mem_append.mp he with h | h
      · exact hch x e h
      · exact ih _ e h

theorem rowFinder_effects_matchEff (board : Board T) :
    ∀ e ∈ (FindAllRowMatches board).boardEffects, IsMatchEffect e := by
  rw [findAllRowMatches_eq]
  intro e he
  simp only [List.mem_flatten, List.mem_map] at he
  obtain ⟨l, ⟨i, -, rfl⟩, hel⟩ := he
  exact lineScan_effects_matchEff _ (checkRow_effects_matchEff board) _ _ e hel

theorem colFinder_effects_matchEff (board : Board T) :
    ∀ e ∈ (FindAllColumnMatches board).boardEffects, IsMatchEffect e := by
  rw [findAllColumnMatches_eq]
  intro e he
  simp only [List.mem_flatten, List.mem_map] at he
  obtain ⟨l, ⟨i, -, rfl⟩, hel⟩ := he
  exact lineScan_effects_matchEff _ (checkCol_effects_matchEff board) _ _ e hel

theorem isMoveLegal_matches (board : Board T) (a c : Position)
    (h : IsMoveLegal board a c = true) :
    ¬((FindAllRowMatches (SwapPieces board a c)).matchesFound = [] ∧
      (FindAllColumnMatches (SwapPieces board a c)).matchesFound = []) := by
  unfold IsMoveLegal at h
  dsimp only at h
  split_ifs at h with h1 h2 h3 h4
  all_goals first
  | (intro hc; exact h4 ⟨List.isEmpty_iff.mpr hc.1, List.isEmpty_iff.mpr hc.2⟩)
  | cases h

theorem passStructured_getLast {b : Board T} {t : List (BoardEffect T)}
    (h : PassStructured b t) :
    t = [] ∨ ∃ bb, t.getLast? = some (BoardEffect.refill bb) := by
  induction h with
  | done b h1 h2 => exact Or.inl rfl
  | step b b' rest hne hrm hcm hrest ih =>
    right
    have e1 : ((FindAllRowMatches b).boardEffects ++ (FindAllColumnMatches b).boardEffects ++
        BoardEffect.refill b' :: rest).getLast? = (BoardEffect.refill b' :: rest).getLast? := by
      rw [List.append_assoc]
      exact (List.getLast?_append_of_ne_nil _
          (by simp : (FindAllColumnMatches b).boardEffects ++ BoardEffect.refill b' :: rest ≠ [])).trans
        (List.getLast?_append_of_ne_nil _
          (by simp : BoardEffect.refill b' :: rest ≠ []))
    rw [e1]
    rcases ih with rfl | ⟨bb, hbb⟩
    · exact ⟨b', by simp⟩
    · have hrne : rest ≠ [] := by
        intro hc
        subst hc
        simp at hbb
      refine ⟨bb, ?_⟩
      have e2 : BoardEffect.refill b' :: rest = [BoardEffect.refill b'] ++ rest := rfl
      rw [e2, List.getLast?_append_of_ne_nil _ hrne]
      exact hbb

theorem passStructured_nil {b : Board T} {t : List (BoardEffect T)}
    (h : PassStructured b t) (ht : t = []) :
    (FindAllRowMatches b).matchesFound = [] ∧ (FindAllColumnMatches b).matchesFound = [] := by
  induction h with
  | done b h1 h2 => exact ⟨h1, h2⟩
  | step b b' rest hne hrm hcm hrest ih => simp at ht

theorem checkBoardLoop_ok_effects (fuel : Nat) :
    ∀ (b : Board T) (g : List T) (effs : List (BoardEffect T)) (b' : Board T)
      (g' : List T) (e' : List (BoardEffect T)),
      CheckBoardLoop fuel b g effs = CascadeResult.ok b' g' e' →
      ∃ tail, e' = effs ++ tail ∧ PassStructured b tail := by
  induction fuel with
  | zero => intro b g effs b' g' e' h; cases h
  | succ fuel ih =>
    intro b g effs b' g' e' h
    rw [CheckBoardLoop] at h
    dsimp only at h
    split_ifs at h with hq
    · obtain ⟨hrm, hcm⟩ := hq
      rw [List.isEmpty_iff] at hrm hcm
      have hrmE : (FindAllRowMatches b).boardEffects = [] := (rowMatches_nil_iff b).mpr hrm
      have hcmE : (FindAllColumnMatches b).boardEffects = [] := (colMatches_nil_iff b).mpr hcm
      injection h with hb hg he
      refine ⟨[], ?_, PassStructured.done b hrm hcm⟩
      rw [← he, hrmE, hcmE]
      simp
    · cases hscan : UpdateScan
          (MatchValuesRemoved b (FindAllRowMatches b).matchesFound
            (FindAllColumnMatches b).matchesFound) g with
      | none => rw [hscan] at h; cases h
      | some bg =>
        obtain ⟨b2, g2⟩ := bg
        rw [hscan] at h
        obtain ⟨tail, htail, hps⟩ := ih _ _ _ _ _ _ h
        refine ⟨(FindAllRowMatches b).boardEffects ++ (FindAllColumnMatches b).boardEffects ++
          BoardEffect.refill b2 :: tail, ?_, ?_⟩
        · rw [htail]
          simp [List.append_assoc]
        · refine PassStructured.step b b2 tail ?_
            (rowFinder_effects_matchEff b) (colFinder_effects_matchEff b) hps
          intro hc
          exact hq ⟨List.isEmpty_iff.mpr hc.1, List.isEmpty_iff.mpr hc.2⟩

theorem checkBoardLoop_ok_noMatches (fuel : Nat) :
    ∀ (b : Board T) (g : List T) (effs : List (BoardEffect T)) (b' : Board T)
      (g' : List T) (e' : List (BoardEffect T)),
      CheckBoardLoop fuel b g effs = CascadeResult.ok b' g' e' →
      (FindAllRowMatches b').matchesFound = [] ∧
        (FindAllColumnMatches b').matchesFound = [] := by
  induction fuel with
  | zero => intro b g effs b' g' e' h; cases h
  | succ fuel ih =>
    intro b g effs b' g' e' h
    rw [CheckBoardLoop] at h
    dsimp only at h
    split_ifs at h with hq
    · obtain ⟨hrm, hcm⟩ := hq
      rw [List.isEmpty_iff] at hrm hcm
      injection h with hb hg he
      subst hb
      exact ⟨hrm, hcm⟩
    · cases hscan : UpdateScan
          (MatchValuesRemoved b (FindAllRowMatches b).matchesFound
            (FindAllColumnMatches b).matchesFound) g with
      | none => rw [hscan] at h; cases h
      | some bg =>
        obtain ⟨b2, g2⟩ := bg
        rw [hscan] at h
        exact ih _ _ _ _ _ _ h

/-- Claim C1: whenever `move` returns (rather than failing on an exhausted
supplier), the returned effect log is empty exactly when the requested move
was illegal, and for an illegal move the returned board is the unchanged
input board (and the supplier is untouched).  The result always carries the
board together with the full ordered effect log of the call. -/
theorem move_result_spec (gen : List T) (board : Board T) (a c : Position)
    (res : MoveResult T) (g' : List T)
    (hmv : move gen board a c = some (res, g')) :
    (res.boardEffects = [] ↔ canMove board a c = false) ∧
    (canMove board a c = false → res.board = board ∧ g' = gen) := by
  unfold move at hmv
  by_cases hleg : IsMoveLegal board a c = true
  · rw [if_pos hleg] at hmv
    dsimp only at hmv
    cases hLoop : CheckBoardLoop (gen.length + 1) (SwapPieces board a c) gen [] with
    | genFail => rw [hLoop] at hmv; cases hmv
    | fuelFail => rw [hLoop] at hmv; cases hmv
    | ok b2 g2 e2 =>
      rw [hLoop] at hmv
      injection hmv with hmv1
      injection hmv1 with hres hg
      subst hres
      subst hg
      obtain ⟨tail, htail, hps⟩ := checkBoardLoop_ok_effects _ _ _ _ _ _ _ hLoop
      have htne : tail ≠ [] := by
        intro hc
        exact absurd (passStructured_nil hps hc) (isMoveLegal_matches board a c hleg)
      have he2 : e2 ≠ [] := by
        rw [htail]
        simpa using htne
      have hcm : canMove board a c = true := hleg
      constructor
      · constructor
        · intro hc; exact absurd hc he2
        · intro hc; rw [hcm] at hc; cases hc
      · intro hc; rw [hcm] at hc; cases hc
  · rw [if_neg hleg] at hmv
    injection hmv with hmv1
    injection hmv1 with hres hg
    subst hres
    subst hg
    have hfalse : canMove board a c = false := by
      unfold canMove
      cases hI : IsMoveLegal board a c
      · rfl
      · exact absurd hI hleg
    exact ⟨by simp [hfalse], fun _ => ⟨rfl, rfl⟩⟩

/-- Witness for C1 at the concrete scenario fixture. -/
theorem move_result_spec_witness :
    (c9res.boardEffects = [] ↔ canMove c9board ⟨0, 1⟩ ⟨2, 1⟩ = false) ∧
    (canMove c9board ⟨0, 1⟩ ⟨2, 1⟩ = false → c9res.board = c9board ∧ ([] : List Char) = c9supply) :=
  move_result_spec c9supply c9board ⟨0, 1⟩ ⟨2, 1⟩ c9res [] (by decide)

/-- Claim C6: the effect log of every completed legal `move` decomposes into
passes — each pass contributes its row-axis `Match` effects first, then its
column-axis `Match` effects, then a single `Refill` that follows all `Match`
effects of that pass — and the last effect of the cascading move is a
`Refill`. -/
theorem move_effect_ordering (gen : List T) (board : Board T) (a c : Position)
    (res : MoveResult T) (g' : List T)
    (hleg : IsMoveLegal board a c = true)
    (hmv : move gen board a c = some (res, g')) :
    PassStructured (SwapPieces board a c) res.boardEffects ∧
    ∃ bb, res.boardEffects.getLast? = some (BoardEffect.refill bb) := by
  unfold move at hmv
  rw [if_pos hleg] at hmv
  dsimp only at hmv
  cases hLoop : CheckBoardLoop (gen.length + 1) (SwapPieces board a c) gen [] with
  | genFail => rw [hLoop] at hmv; cases hmv
  | fuelFail => rw [hLoop] at hmv; cases hmv
  | ok b2 g2 e2 =>
    rw [hLoop] at hmv
    injection hmv with hmv1
    injection hmv1 with hres hg
    subst hres
    obtain ⟨tail, htail, hps⟩ := checkBoardLoop_ok_effects _ _ _ _ _ _ _ hLoop
    rw [List.nil_append] at htail
    subst htail
    refine ⟨hps, ?_⟩
    rcases passStructured_getLast hps with hnil | hlast
    · exact absurd (passStructured_nil hps hnil) (isMoveLegal_matches board a c hleg)
    · exact hlast

/-- Witness for C6 at the concrete scenario fixture. -/
theorem move_effect_ordering_witness :
    PassStructured (SwapPieces c9board ⟨0, 1⟩ ⟨2, 1⟩) c9res.boardEffects ∧
    ∃ bb, c9res.boardEffects.getLast? = some (BoardEffect.refill bb) :=
  move_effect_ordering c9supply c9board ⟨0, 1⟩ ⟨2, 1⟩ c9res [] (by decide) (by decide)

theorem sameSkeleton_refl (b : Board T) : SameSkeleton b b := ⟨rfl, rfl, rfl⟩

theorem sameSkeleton_trans {b1 b2 b3 : Board T}
    (h12 : SameSkeleton b1 b2) (h23 : SameSkeleton b2 b3) : SameSkeleton b1 b3 :=
  ⟨h23.1.trans h12.1, h23.2.1.trans h12.2.1, h23.2.2.trans h12.2.2⟩

theorem isGridBoard_of_skeleton {b b' : Board T} (h : SameSkeleton b b')
    (hg : IsGridBoard b) : IsGridBoard b' := by
  unfold IsGridBoard at *
  rw [h.2.2, h.1, h.2.1]
  exact hg

theorem swapPieces_skeleton (b : Board T) (a c : Position) :
    SameSkeleton b (SwapPieces b a c) := by
  unfold SwapPieces
  cases b.tilePieces.findIdx? (fun e => decide (e.position = a)) with
  | none => exact sameSkeleton_refl b
  | some i =>
    cases b.tilePieces.findIdx? (fun e => decide (e.position = c)) with
    | none => exact sameSkeleton_refl b
    | some j => exact ⟨rfl, rfl, swapValueFields_map_position _ i j⟩

theorem setValueAt_skeleton (b : Board T) (p : Position) (v : Option T) :
    SameSkeleton b (setValueAt b p v) := by
  refine ⟨rfl, rfl, ?_⟩
  unfold setValueAt
  simp only [List.map_map]
  refine List.map_congr_left ?_
  intro t _
  by_cases h : t.position = p <;> simp [h]

theorem clearPieces_skeleton (b : Board T) (ps : List (TilePiece T)) :
    SameSkeleton b (clearPieces b ps) := by
  induction ps generalizing b with
  | nil => exact sameSkeleton_refl b
  | cons x rest ih =>
    exact sameSkeleton_trans (setValueAt_skeleton b x.position none) (ih _)

theorem matchValuesRemoved_skeleton (b : Board T) (rm cm : List (TilePiece T)) :
    SameSkeleton b (MatchValuesRemoved b rm cm) :=
  sameSkeleton_trans (clearPieces_skeleton b rm) (clearPieces_skeleton _ cm)

theorem shiftElementsInColumn_skeleton (b : Board T) (fromRow col : Int) :
    SameSkeleton b (ShiftElementsInColumn b fromRow col) := by
  unfold ShiftElementsInColumn
  generalize shiftRowIndices fromRow = idxs
  induction idxs generalizing b with
  | nil => exact sameSkeleton_refl b
  | cons r rest ih =>
    rw [List.foldl_cons]
    exact sameSkeleton_trans (swapPieces_skeleton b _ _) (ih _)

theorem find?_some_of_valueNoneAt {b : Board T} {q : Position} (h : ValueNoneAt b q) :
    ∃ t, FindTilePieceOnPosition b q = some t := ⟨h.choose, h.choose_spec.1⟩

theorem setValueAt_find (b : Board T) (p q : Position) (v : Option T) :
    FindTilePieceOnPosition (setValueAt b p v) q =
      (FindTilePieceOnPosition b q).map
        (fun t => if t.position = p then ⟨t.position, v⟩ else t) := by
  unfold FindTilePieceOnPosition setValueAt
  simp only
  rw [List.find?_map]
  have hpred : ((fun element => decide (element.position = q)) ∘ fun t =>
      if t.position = p then (⟨t.position, v⟩ : TilePiece T) else t) =
      (fun element : TilePiece T => decide (element.position = q)) := by
    funext t
    by_cases h : t.position = p <;> simp [h]
  rw [hpred]

theorem valueNoneAt_setValueAt_self {b : Board T} {p : Position}
    (h : ∃ t, FindTilePieceOnPosition b p = some t) :
    ValueNoneAt (setValueAt b p none) p := by
  obtain ⟨t, ht⟩ := h
  have hp : t.position = p := (find?_eq_some_position ht).1
  refine ⟨if t.position = p then ⟨t.position, none⟩ else t, ?_, ?_⟩
  · rw [setValueAt_find, ht]
    rfl
  · rw [if_pos hp]

theorem valueNoneAt_setValueAt_mono {b : Board T} {q : Position} (p : Position)
    (h : ValueNoneAt b q) : ValueNoneAt (setValueAt b p none) q := by
  obtain ⟨t, ht, hv⟩ := h
  refine ⟨if t.position = p then ⟨t.position, none⟩ else t, ?_, ?_⟩
  · rw [setValueAt_find, ht]
    rfl
  · by_cases hc : t.position = p <;> simp [hc, hv]

theorem find?_some_setValueAt {b : Board T} {q : Position} (p : Position) (v : Option T)
    (h : ∃ t, FindTilePieceOnPosition b q = some t) :
    ∃ t, FindTilePieceOnPosition (setValueAt b p v) q = some t := by
  obtain ⟨t, ht⟩ := h
  exact ⟨_, by rw [setValueAt_find, ht]; rfl⟩

theorem valueNoneAt_clearPieces_mono {b : Board T} {q : Position}
    (ps : List (TilePiece T)) (h : ValueNoneAt b q) : ValueNoneAt (clearPieces b ps) q := by
  induction ps generalizing b with
  | nil => exact h
  | cons x rest ih => exact ih (valueNoneAt_setValueAt_mono x.position h)

theorem find?_some_clearPieces {b : Board T} {q : Position} (ps : List (TilePiece T))
    (h : ∃ t, FindTilePieceOnPosition b q = some t) :
    ∃ t, FindTilePieceOnPosition (clearPieces b ps) q = some t := by
  induction ps generalizing b with
  | nil => exact h
  | cons x rest ih => exact ih (find?_some_setValueAt x.position none h)

theorem valueNoneAt_clearPieces {b : Board T} {t0 : TilePiece T}
    (ps : List (TilePiece T)) (hmem : t0 ∈ ps)
    (h : ∃ t, FindTilePieceOnPosition b t0.position = some t) :
    ValueNoneAt (clearPieces b ps) t0.position := by
  induction ps generalizing b with
  | nil => cases hmem
  | cons x rest ih =>
    rcases List.mem_cons.mp hmem with rfl | htl
    · exact valueNoneAt_clearPieces_mono rest (valueNoneAt_setValueAt_self h)
    · exact ih htl (find?_some_setValueAt x.position none h)

theorem mem_scanCells {h w : Int} {rc : Int × Int} :
    rc ∈ scanCells h w ↔ 0 ≤ rc.1 ∧ rc.1 < h ∧ 0 ≤ rc.2 ∧ rc.2 < w := by
  unfold scanCells
  simp only [List.mem_flatten, List.mem_map]
  constructor
  · rintro ⟨l, ⟨r, hr, rfl⟩, hp⟩
    simp only [List.mem_map] at hp
    obtain ⟨c, hc, rfl⟩ := hp
    obtain ⟨hr0, hr1⟩ := mem_loopRange.mp hr
    obtain ⟨hc0, hc1⟩ := mem_loopRange.mp hc
    exact ⟨hr0, hr1, hc0, hc1⟩
  · rintro ⟨h1, h2, h3, h4⟩
    refine ⟨(loopRange w).map (fun c => (rc.1, c)), ⟨rc.1, mem_loopRange.mpr ⟨h1, h2⟩, rfl⟩, ?_⟩
    simp only [List.mem_map]
    exact ⟨rc.2, mem_loopRange.mpr ⟨h3, h4⟩, rfl⟩

theorem refillCell_some {b : Board T} {g : List T} {r c : Int} {b1 : Board T} {g1 : List T}
    (h : RefillCell b g r c = some (b1, g1)) :
    SameSkeleton b b1 ∧ g1.length ≤ g.length ∧
      (g1.length < g.length ∨ (b1 = b ∧ g1 = g ∧ ¬ValueNoneAt b ⟨r, c⟩)) := by
  unfold RefillCell at h
  cases hf : FindTilePieceOnPosition b ⟨r, c⟩ with
  | none => rw [hf] at h; cases h
  | some t =>
    rw [hf] at h
    dsimp only at h
    by_cases hv : t.value = none
    · rw [if_pos hv] at h
      cases g with
      | nil => simp at h
      | cons gh gt =>
        injection h with h1
        injection h1 with hb hg
        subst hb
        subst hg
        refine ⟨?_, by simp, Or.inl (by simp)⟩
        exact sameSkeleton_trans (shiftElementsInColumn_skeleton b _ _)
          (setValueAt_skeleton _ _ _)
    · rw [if_neg hv] at h
      injection h with h1
      injection h1 with hb hg
      subst hb
      subst hg
      refine ⟨sameSkeleton_refl b, le_refl _, Or.inr ⟨rfl, rfl, ?_⟩⟩
      rintro ⟨t', ht', hv'⟩
      rw [hf] at ht'
      injection ht' with ht'
      subst ht'
      exact hv hv'

theorem scanFold_none (cells : List (Int × Int)) :
    cells.foldl (fun acc rc => acc.bind (fun bg => RefillCell (T := T) bg.1 bg.2 rc.1 rc.2))
      none = none := by
  induction cells with
  | nil => rfl
  | cons rc rest ih => rw [List.foldl_cons]; exact ih

theorem scanFold_skeleton (cells : List (Int × Int)) :
    ∀ (b : Board T) (g : List T) (b' : Board T) (g' : List T),
      cells.foldl (fun acc rc => acc.bind (fun bg => RefillCell bg.1 bg.2 rc.1 rc.2))
        (some (b, g)) = some (b', g') →
      SameSkeleton b b' ∧ g'.length ≤ g.length := by
  induction cells with
  | nil =>
    intro b g b' g' h
    injection h with h1
    injection h1 with hb hg
    subst hb
    subst hg
    exact ⟨sameSkeleton_refl b, le_refl _⟩
  | cons rc rest ih =>
    intro b g b' g' h
    rw [List.foldl_cons] at h
    simp only [Option.some_bind] at h
    cases hstep : RefillCell b g rc.1 rc.2 with
    | none =>
      rw [hstep, scanFold_none] at h
      cases h
    | some bg1 =>
      obtain ⟨b1, g1⟩ := bg1
      rw [hstep] at h
      obtain ⟨hsk, hle⟩ := ih b1 g1 b' g' h
      obtain ⟨hsk0, hle0, -⟩ := refillCell_some hstep
      exact ⟨sameSkeleton_trans hsk0 hsk, le_trans hle hle0⟩

theorem scanFold_strict (cells : List (Int × Int)) :
    ∀ (b : Board T) (g : List T) (b' : Board T) (g' : List T),
      cells.foldl (fun acc rc => acc.bind (fun bg => RefillCell bg.1 bg.2 rc.1 rc.2))
        (some (b, g)) = some (b', g') →
      (∃ rc ∈ cells, ValueNoneAt b ⟨rc.1, rc.2⟩) →
      g'.length < g.length := by
  induction cells with
  | nil =>
    intro b g b' g' h hex
    obtain ⟨rc, hrc, -⟩ := hex
    cases hrc
  | cons rc0 rest ih =>
    intro b g b' g' h hex
    rw [List.foldl_cons] at h
    simp only [Option.some_bind] at h
    cases hstep : RefillCell b g rc0.1 rc0.2 with
    | none =>
      rw [hstep, scanFold_none] at h
      cases h
    | some bg1 =>
      obtain ⟨b1, g1⟩ := bg1
      rw [hstep] at h
      obtain ⟨-, -, hdec⟩ := refillCell_some hstep
      rcases hdec with hlt | ⟨rfl, rfl, hnot⟩
      · have := (scanFold_skeleton rest _ _ _ _ h).2
        omega
      · obtain ⟨rc, hrc, hnone⟩ := hex
        rcases List.mem_cons.mp hrc with rfl | htl
        · exact absurd hnone hnot
        · exact ih _ _ _ _ h ⟨rc, htl, hnone⟩

theorem checkNeighbours_mem (b : Board T) (v : Option T) (dir : DIRECTION) :
    ∀ (fuel : Nat) (cur : Option (TilePiece T)) (acc : List (TilePiece T)),
      (∀ t ∈ acc, t ∈ b.tilePieces) →
      (∀ t, cur = some t → t ∈ b.tilePieces) →
      ∀ t ∈ CheckNeighbours fuel b cur acc v dir, t ∈ b.tilePieces := by
  intro fuel
  induction fuel with
  | zero => intro cur acc hacc hcur t ht; exact hacc t ht
  | succ fuel ih =>
    intro cur acc hacc hcur t ht
    cases cur with
    | none => exact hacc t ht
    | some piece =>
      rw [CheckNeighbours] at ht
      by_cases hv : piece.value = v
      · rw [if_pos hv] at ht
        refine ih _ _ ?_ ?_ t ht
        · intro t' ht'
          rcases List.mem_append.mp ht' with h | h
          · exact hacc t' h
          · rw [List.mem_singleton] at h
            rw [h]
            exact hcur piece rfl
        · intro t' ht'
          exact (find?_eq_some_position ht').2
      · rw [if_neg hv] at ht
        exact hacc t ht

theorem checkRow_matches_mem (b : Board T) (s : TilePiece T) (hs : s ∈ b.tilePieces) :
    ∀ t ∈ (AllNeighboursInRowCheck b s).matchesFound, t ∈ b.tilePieces := by
  unfold AllNeighboursInRowCheck
  dsimp only
  split_ifs with h
  · unfold CreateBoardEffectForMatch
    intro t ht
    simp only at ht
    rcases List.mem_append.mp ht with h1 | h1
    · rcases List.mem_append.mp h1 with h2 | h2
      · exact checkNeighbours_mem b s.value .LEFT _ _ _ (by simp)
          (fun t' ht' => (find?_eq_some_position ht').2) t h2
      · rw [List.mem_singleton] at h2
        subst h2
        exact hs
    · exact checkNeighbours_mem b s.value .RIGHT _ _ _ (by simp)
        (fun t' ht' => (find?_eq_some_position ht').2) t h1
  · intro t ht
    simp at ht

theorem checkCol_matches_mem (b : Board T) (s : TilePiece T) (hs : s ∈ b.tilePieces) :
    ∀ t ∈ (AllNeighboursInColCheck b s).matchesFound, t ∈ b.tilePieces := by
  unfold AllNeighboursInColCheck
  dsimp only
  split_ifs with h
  · unfold CreateBoardEffectForMatch
    intro t ht
    simp only at ht
    rcases List.mem_append.mp ht with h1 | h1
    · rcases List.mem_append.mp h1 with h2 | h2
      · exact checkNeighbours_mem b s.value .UP _ _ _ (by simp)
          (fun t' ht' => (find?_eq_some_position ht').2) t h2
      · rw [List.mem_singleton] at h2
        subst h2
        exact hs
    · exact checkNeighbours_mem b s.value .DOWN _ _ _ (by simp)
        (fun t' ht' => (find?_eq_some_position ht').2) t h1
  · intro t ht
    simp at ht

theorem lineScanMatches_mem {P : TilePiece T → Prop} (check : TilePiece T → MatchResult T)
    (elems : List (TilePiece T))
    (hch : ∀ s ∈ elems, ∀ t ∈ (check s).matchesFound, P t) :
    ∀ checked, ∀ t ∈ lineScanMatches check elems checked, P t := by
  induction elems with
  | nil => intro checked t ht; simp [lineScanMatches] at ht
  | cons x rest ih =>
    intro checked t ht
    by_cases hmem : x.value ∈ checked
    · rw [lineScanMatches, if_pos hmem] at ht
      exact ih (fun s hs => hch s (List.mem_cons_of_mem _ hs)) checked t ht
    · rw [lineScanMatches, if_neg hmem] at ht
      rcases List.mem_append.mp ht with h | h
      · exact hch x (List.mem_cons_self _ _) t h
      · exact ih (fun s hs => hch s (List.mem_cons_of_mem _ hs)) _ t h

theorem rowFinder_matches_mem (b : Board T) :
    ∀ t ∈ (FindAllRowMatches b).matchesFound, t ∈ b.tilePieces := by
  rw [findAllRowMatches_eq]
  intro t ht
  simp only [List.mem_flatten, List.mem_map] at ht
  obtain ⟨l, ⟨i, -, rfl⟩, hel⟩ := ht
  refine lineScanMatches_mem _ _ ?_ [] t hel
  intro s hs t' ht'
  unfold FindAllTilePiecesInRow at hs
  exact checkRow_matches_mem b s (List.mem_of_mem_filter hs) t' ht'

theorem colFinder_matches_mem (b : Board T) :
    ∀ t ∈ (FindAllColumnMatches b).matchesFound, t ∈ b.tilePieces := by
  rw [findAllColumnMatches_eq]
  intro t ht
  simp only [List.mem_flatten, List.mem_map] at ht
  obtain ⟨l, ⟨i, -, rfl⟩, hel⟩ := ht
  refine lineScanMatches_mem _ _ ?_ [] t hel
  intro s hs t' ht'
  unfold FindAllTilePiecesInColumn at hs
  exact checkCol_matches_mem b s (List.mem_of_mem_filter hs) t' ht'

theorem find?_some_of_mem {b : Board T} {t0 : TilePiece T} (h : t0 ∈ b.tilePieces) :
    ∃ t, FindTilePieceOnPosition b t0.position = some t := by
  unfold FindTilePieceOnPosition
  have : (b.tilePieces.find? (fun e => decide (e.position = t0.position))).isSome :=
    List.find?_isSome.mpr ⟨t0, h, by simp⟩
  rcases Option.isSome_iff_exists.mp this with ⟨t, ht⟩
  exact ⟨t, ht⟩

/-- With fuel `gen.length + 1` the fuelled cascade loop never runs out of
fuel on a grid-shaped board: every looping pass clears at least one in-range
cell and therefore consumes at least one supplier value. -/
theorem checkBoardLoop_no_fuelFail :
    ∀ (fuel : Nat) (b : Board T) (g : List T) (effs : List (BoardEffect T)),
      IsGridBoard b → g.length + 1 ≤ fuel →
      CheckBoardLoop fuel b g effs ≠ CascadeResult.fuelFail := by
  intro fuel
  induction fuel with
  | zero => intro b g effs hg hf; exact absurd hf (by omega)
  | succ fuel ih =>
    intro b g effs hg hf
    rw [CheckBoardLoop]
    dsimp only
    split_ifs with hq
    · intro hc; cases hc
    · cases hscan : UpdateScan
          (MatchValuesRemoved b (FindAllRowMatches b).matchesFound
            (FindAllColumnMatches b).matchesFound) g with
      | none => intro hc; cases hc
      | some bg =>
        obtain ⟨b2, g2⟩ := bg
        have hmatches : ¬((FindAllRowMatches b).matchesFound = [] ∧
            (FindAllColumnMatches b).matchesFound = []) := fun hc =>
          hq ⟨List.isEmpty_iff.mpr hc.1, List.isEmpty_iff.mpr hc.2⟩
        have hex : ∃ t0, t0 ∈ (FindAllRowMatches b).matchesFound ∨
            t0 ∈ (FindAllColumnMatches b).matchesFound := by
          rcases not_and_or.mp hmatches with hne | hne
          · obtain ⟨t0, ht0⟩ := List.exists_mem_of_ne_nil _ hne
            exact ⟨t0, Or.inl ht0⟩
          · obtain ⟨t0, ht0⟩ := List.exists_mem_of_ne_nil _ hne
            exact ⟨t0, Or.inr ht0⟩
        obtain ⟨t0, ht0⟩ := hex
        have ht0mem : t0 ∈ b.tilePieces := by
          rcases ht0 with h | h
          · exact rowFinder_matches_mem b t0 h
          · exact colFinder_matches_mem b t0 h
        have hfind := find?_some_of_mem ht0mem
        have hnone : ValueNoneAt
            (MatchValuesRemoved b (FindAllRowMatches b).matchesFound
              (FindAllColumnMatches b).matchesFound) t0.position := by
          unfold MatchValuesRemoved
          rcases ht0 with h | h
          · exact valueNoneAt_clearPieces_mono _ (valueNoneAt_clearPieces _ h hfind)
          · exact valueNoneAt_clearPieces _ h (find?_some_clearPieces _ hfind)
        have hsk1 := matchValuesRemoved_skeleton b (FindAllRowMatches b).matchesFound
          (FindAllColumnMatches b).matchesFound
        have hbnds := mem_position_bounds hg ht0mem
        have hcell : (t0.position.row, t0.position.col) ∈
            scanCells (MatchValuesRemoved b (FindAllRowMatches b).matchesFound
              (FindAllColumnMatches b).matchesFound).height
              (MatchValuesRemoved b (FindAllRowMatches b).matchesFound
                (FindAllColumnMatches b).matchesFound).width := by
          rw [mem_scanCells]
          dsimp only
          rw [hsk1.1, hsk1.2.1]
          exact ⟨hbnds.1, hbnds.2.1, hbnds.2.2.1, hbnds.2.2.2⟩
        rw [UpdateScan] at hscan
        have hpos : (⟨t0.position.row, t0.position.col⟩ : Position) = t0.position := rfl
        have hdec : g2.length < g.length :=
          scanFold_strict _ _ _ _ _ hscan
            ⟨(t0.position.row, t0.position.col), hcell, by rw [hpos]; exact hnone⟩
        have hsk2 := (scanFold_skeleton _ _ _ _ _ hscan).1
        have hg2 : IsGridBoard b2 :=
          isGridBoard_of_skeleton (sameSkeleton_trans hsk1 hsk2) hg
        exact ih b2 g2 _ hg2 (by omega)

/-- Claim C2: on a grid-shaped board, a legal swap's cascade terminates —
 the fuelled loop with fuel `gen.length + 1` (what `move` uses) never hits
its fuel bound, so `move` either completes or fails only because the finite
supplier ran out — and whenever `move` completes, the board it returns is
quiescent: no row match and no column match remains. -/
theorem move_cascade_terminates (gen : List T) (board : Board T) (a c : Position)
    (hg : IsGridBoard board) (hleg : IsMoveLegal board a c = true) :
    CheckBoardLoop (gen.length + 1) (SwapPieces board a c) gen [] ≠
      CascadeResult.fuelFail ∧
    ∀ (res : MoveResult T) (g' : List T), move gen board a c = some (res, g') →
      (FindAllRowMatches res.board).matchesFound = [] ∧
      (FindAllColumnMatches res.board).matchesFound = [] := by
  constructor
  · exact checkBoardLoop_no_fuelFail _ _ _ _
      (isGridBoard_of_skeleton (swapPieces_skeleton board a c) hg) (le_refl _)
  · intro res g' hmv
    unfold move at hmv
    rw [if_pos hleg] at hmv
    dsimp only at hmv
    cases hLoop : CheckBoardLoop (gen.length + 1) (SwapPieces board a c) gen [] with
    | genFail => rw [hLoop] at hmv; cases hmv
    | fuelFail => rw [hLoop] at hmv; cases hmv
    | ok b2 g2 e2 =>
      rw [hLoop] at hmv
      injection hmv with hmv1
      injection hmv1 with hres hgen
      subst hres
      exact checkBoardLoop_ok_noMatches _ _ _ _ _ _ _ hLoop

/-- Witness for C2 at the concrete scenario fixture. -/
theorem move_cascade_terminates_witness :
    (CheckBoardLoop (c9supply.length + 1) (SwapPieces c9board ⟨0, 1⟩ ⟨2, 1⟩) c9supply [] ≠
      CascadeResult.fuelFail) ∧
    ∀ (res : MoveResult Char) (g' : List Char),
      move c9supply c9board ⟨0, 1⟩ ⟨2, 1⟩ = some (res, g') →
      (FindAllRowMatches res.board).matchesFound = [] ∧
      (FindAllColumnMatches res.board).matchesFound = [] :=
  move_cascade_terminates c9supply c9board ⟨0, 1⟩ ⟨2, 1⟩ (by decide) (by decide)

theorem checkNeighbours_value (b : Board T) (v : Option T) (dir : DIRECTION) :
    ∀ (fuel : Nat) (cur : Option (TilePiece T)) (acc : List (TilePiece T)),
      (∀ t ∈ acc, t.value = v) →
      ∀ t ∈ CheckNeighbours fuel b cur acc v dir, t.value = v := by
  intro fuel
  induction fuel with
  | zero => intro cur acc hacc t ht; exact hacc t ht
  | succ fuel ih =>
    intro cur acc hacc t ht
    cases cur with
    | none => exact hacc t ht
    | some piece =>
      rw [CheckNeighbours] at ht
      by_cases hv : piece.value = v
      · rw [if_pos hv] at ht
        refine ih _ _ ?_ t ht
        intro t' ht'
        rcases List.mem_append.mp ht' with h | h
        · exact hacc t' h
        · rw [List.mem_singleton] at h
          rw [h]
          exact hv
      · rw [if_neg hv] at ht
        exact hacc t ht

theorem checkRow_effects_value (b : Board T) (s : TilePiece T) :
    (AllNeighboursInRowCheck b s).boardEffects = [] ∨
    ∃ m, (AllNeighboursInRowCheck b s).boardEffects = [BoardEffect.matchEff m] ∧
      m.matched = s.value := by
  unfold AllNeighboursInRowCheck
  dsimp only
  split_ifs with h
  · right
    unfold CreateBoardEffectForMatch
    refine ⟨_, rfl, ?_⟩
    dsimp only
    cases hL : CheckNeighbours (b.tilePieces.length + 1) b
        (FindTilePieceOnPosition b (FindNextPiecePosition s .LEFT)) [] s.value .LEFT with
    | nil => simp
    | cons x xs =>
      have hx : x.value = s.value :=
        checkNeighbours_value b s.value .LEFT (b.tilePieces.length + 1) _ [] (by simp) x
          (by rw [hL]; exact List.mem_cons_self _ _)
      simp [hx]
  · left
    rfl

theorem checkCol_effects_value (b : Board T) (s : TilePiece T) :
    (AllNeighboursInColCheck b s).boardEffects = [] ∨
    ∃ m, (AllNeighboursInColCheck b s).boardEffects = [BoardEffect.matchEff m] ∧
      m.matched = s.value := by
  unfold AllNeighboursInColCheck
  dsimp only
  split_ifs with h
  · right
    unfold CreateBoardEffectForMatch
    refine ⟨_, rfl, ?_⟩
    dsimp only
    cases hL : CheckNeighbours (b.tilePieces.length + 1) b
        (FindTilePieceOnPosition b (FindNextPiecePosition s .UP)) [] s.value .UP with
    | nil => simp
    | cons x xs =>
      have hx : x.value = s.value :=
        checkNeighbours_value b s.value .UP (b.tilePieces.length + 1) _ [] (by simp) x
          (by rw [hL]; exact List.mem_cons_self _ _)
      simp [hx]
  · left
    rfl

theorem effectMatchedValues_append (l1 l2 : List (BoardEffect T)) :
    effectMatchedValues (l1 ++ l2) = effectMatchedValues l1 ++ effectMatchedValues l2 := by
  unfold effectMatchedValues
  rw [List.filterMap_append]

theorem lineScanEffects_values (check : TilePiece T → MatchResult T)
    (hch : ∀ s, (check s).boardEffects = [] ∨
      ∃ m, (check s).boardEffects = [BoardEffect.matchEff m] ∧ m.matched = s.value)
    (elems : List (TilePiece T)) :
    ∀ checked,
      (effectMatchedValues (lineScanEffects check elems checked)).Pairwise (· ≠ ·) ∧
      ∀ v ∈ effectMatchedValues (lineScanEffects check elems checked), v ∉ checked := by
  induction elems with
  | nil => intro checked; simp [lineScanEffects, effectMatchedValues]
  | cons e rest ih =>
    intro checked
    by_cases hmem : e.value ∈ checked
    · rw [lineScanEffects, if_pos hmem]
      exact ih checked
    · rw [lineScanEffects, if_neg hmem]
      obtain ⟨hpw, hnotin⟩ := ih (checked ++ [e.value])
      have hval : effectMatchedValues ((check e).boardEffects) = [] ∨
          effectMatchedValues ((check e).boardEffects) = [e.value] := by
        rcases hch e with h | ⟨m, hm, hmv⟩
        · left; rw [h]; rfl
        · right; rw [hm, ← hmv]; rfl
      rw [effectMatchedValues_append]
      rcases hval with h0 | h1
      · rw [h0, List.nil_append]
        refine ⟨hpw, fun v hv hc => ?_⟩
        exact hnotin v hv (List.mem_append_left _ hc)
      · rw [h1, List.singleton_append]
        constructor
        · refine List.Pairwise.cons ?_ hpw
          intro v hv hc
          exact hnotin v hv (hc ▸ List.mem_append_right _ (List.mem_singleton_self _))
        · intro v hv
          rcases List.mem_cons.mp hv with rfl | hv'
          · exact hmem
          · intro hc
            exact hnotin v hv' (List.mem_append_left _ hc)

theorem lineScanOfRow_effects (board : Board T) (i : Int) :
    (lineScanOfRow board i).boardEffects =
      lineScanEffects (AllNeighboursInRowCheck board) (FindAllTilePiecesInRow board i) [] := by
  unfold lineScanOfRow
  rw [lineScanAux_eq]
  simp

theorem findAllRowMatches_perRow (board : Board T) :
    (FindAllRowMatches board).boardEffects =
      ((loopRange board.height).map (fun j => (lineScanOfRow board j).boardEffects)).flatten := by
  rw [findAllRowMatches_eq]
  dsimp only
  congr 1
  refine List.map_congr_left ?_
  intro j _
  rw [lineScanOfRow_effects]

/-- Claim C5 (amended): in the row-axis match scan, deduplication is by value
per row and resets between rows — within one row's scan the matched values of
the reported matches are pairwise distinct (at most one match per value per
row), and the whole scan is the concatenation of independent per-row scans,
each starting with fresh dedup state, so the same value can still be matched
in a different row (two rows `A,A,A / A,A,A` yield two matches of `A`).  A
later, positionally separate run of the same value within the same row is
skipped rather than reported (see the counterexample: `A,A,A,B,A,A,A` yields
exactly one match of `A`, at columns 0–2). -/
theorem rowScan_dedup_amended (board : Board T) (i : Int) :
    (effectMatchedValues (lineScanOfRow board i).boardEffects).Pairwise (· ≠ ·) ∧
    (FindAllRowMatches board).boardEffects =
      ((loopRange board.height).map (fun j => (lineScanOfRow board j).boardEffects)).flatten ∧
    (FindAllRowMatches twoRowBoardAAA).boardEffects =
      [BoardEffect.matchEff ⟨some 'A', [⟨0, 0⟩, ⟨0, 1⟩, ⟨0, 2⟩]⟩,
       BoardEffect.matchEff ⟨some 'A', [⟨1, 0⟩, ⟨1, 1⟩, ⟨1, 2⟩]⟩] := by
  refine ⟨?_, findAllRowMatches_perRow board, by decide⟩
  rw [lineScanOfRow_effects]
  exact (lineScanEffects_values _ (checkRow_effects_value board) _ []).1

theorem checkNeighbours_stop (b : Board T) (v : Option T) (dir : DIRECTION)
    (fuel : Nat) (cur : Option (TilePiece T)) (acc : List (TilePiece T))
    (h : ∀ t, cur = some t → ¬(t.value = v)) :
    CheckNeighbours fuel b cur acc v dir = acc := by
  cases fuel with
  | zero => rfl
  | succ fuel =>
    cases cur with
    | none => rfl
    | some piece =>
      rw [CheckNeighbours, if_neg (h piece rfl)]

theorem checkNeighbours_chain_right (b : Board T) (v : Option T) :
    ∀ (fuel : Nat) (p : Position) (acc : List (TilePiece T)),
      ∃ run, CheckNeighbours fuel b (FindTilePieceOnPosition b p) acc v .RIGHT = acc ++ run ∧
        run.map (·.position) =
          (List.range run.length).map (fun k => Position.mk p.row (p.col + Int.ofNat k)) ∧
        ∀ t ∈ run, t.value = v ∧ FindTilePieceOnPosition b t.position = some t := by
  intro fuel
  induction fuel with
  | zero => intro p acc; exact ⟨[], by simp [CheckNeighbours], by simp, by simp⟩
  | succ fuel ih =>
    intro p acc
    cases hf : FindTilePieceOnPosition b p with
    | none =>
      refine ⟨[], ?_, by simp, by simp⟩
      rw [CheckNeighbours]
      simp
    | some piece =>
      by_cases hv : piece.value = v
      · have hpos : piece.position = p := (find?_eq_some_position hf).1
        obtain ⟨run, hrun, hmap, hprops⟩ := ih ⟨p.row, p.col + 1⟩ (acc ++ [piece])
        refine ⟨piece :: run, ?_, ?_, ?_⟩
        · rw [CheckNeighbours]
          rw [if_pos hv]
          have hnext : FindNextPiecePosition piece .RIGHT = ⟨p.row, p.col + 1⟩ := by
            rw [FindNextPiecePosition, hpos]
          rw [hnext, hrun, List.append_assoc, List.singleton_append]
        · rw [List.map_cons, hpos, hmap]
          simp only [List.length_cons]
          rw [List.range_succ_eq_map, List.map_cons, List.map_map]
          congr 1
          · show p = Position.mk p.row (p.col + Int.ofNat 0)
            simp
          · refine (List.map_congr_left ?_).symm
            intro k _
            simp only [Function.comp_apply]
            congr 1
            simp only [Nat.succ_eq_add_one, Int.ofNat_eq_natCast, Nat.cast_add, Nat.cast_one]
            omega
        · intro t ht
          rcases List.mem_cons.mp ht with rfl | htl
          · exact ⟨hv, by rw [hpos]; exact hf⟩
          · exact hprops t htl
      · refine ⟨[], ?_, by simp, by simp⟩
        rw [CheckNeighbours]
        rw [if_neg hv]
        simp

theorem checkNeighbours_chain_down (b : Board T) (v : Option T) :
    ∀ (fuel : Nat) (p : Position) (acc : List (TilePiece T)),
      ∃ run, CheckNeighbours fuel b (FindTilePieceOnPosition b p) acc v .DOWN = acc ++ run ∧
        run.map (·.position) =
          (List.range run.length).map (fun k => Position.mk (p.row + Int.ofNat k) p.col) ∧
        ∀ t ∈ run, t.value = v ∧ FindTilePieceOnPosition b t.position = some t := by
  intro fuel
  induction fuel with
  | zero => intro p acc; exact ⟨[], by simp [CheckNeighbours], by simp, by simp⟩
  | succ fuel ih =>
    intro p acc
    cases hf : FindTilePieceOnPosition b p with
    | none =>
      refine ⟨[], ?_, by simp, by simp⟩
      rw [CheckNeighbours]
      simp
    | some piece =>
      by_cases hv : piece.value = v
      · have hpos : piece.position = p := (find?_eq_some_position hf).1
        obtain ⟨run, hrun, hmap, hprops⟩ := ih ⟨p.row + 1, p.col⟩ (acc ++ [piece])
        refine ⟨piece :: run, ?_, ?_, ?_⟩
        · rw [CheckNeighbours]
          rw [if_pos hv]
          have hnext : FindNextPiecePosition piece .DOWN = ⟨p.row + 1, p.col⟩ := by
            rw [FindNextPiecePosition, hpos]
          rw [hnext, hrun, List.append_assoc, List.singleton_append]
        · rw [List.map_cons, hpos, hmap]
          simp only [List.length_cons]
          rw [List.range_succ_eq_map, List.map_cons, List.map_map]
          congr 1
          · show p = Position.mk (p.row + Int.ofNat 0) p.col
            simp
          · refine (List.map_congr_left ?_).symm
            intro k _
            simp only [Function.comp_apply]
            congr 1
            simp only [Nat.succ_eq_add_one, Int.ofNat_eq_natCast, Nat.cast_add, Nat.cast_one]
            omega
        · intro t ht
          rcases List.mem_cons.mp ht with rfl | htl
          · exact ⟨hv, by rw [hpos]; exact hf⟩
          · exact hprops t htl
      · refine ⟨[], ?_, by simp, by simp⟩
        rw [CheckNeighbours]
        rw [if_neg hv]
        simp

theorem flatten_map_ite {α : Type} {idxs : List Int} {i : Int} (block : List α)
    (hnd : idxs.Nodup) (hmem : i ∈ idxs) :
    (idxs.map (fun r => if r = i then block else [])).flatten = block := by
  induction idxs with
  | nil => cases hmem
  | cons r rest ih =>
    rw [List.map_cons, List.flatten_cons]
    rw [List.nodup_cons] at hnd
    rcases List.mem_cons.mp hmem with heq | htl
    · rw [if_pos heq.symm]
      have hrest : (rest.map (fun r' => if r' = i then block else [])).flatten = [] := by
        rw [List.flatten_eq_nil_iff]
        intro l hl
        rw [List.mem_map] at hl
        obtain ⟨r', hr', rfl⟩ := hl
        rw [if_neg ?_]
        intro hc
        exact hnd.1 (by rwa [hc, heq] at hr')
      rw [hrest, List.append_nil]
    · rw [if_neg ?_, List.nil_append, ih hnd.2 htl]
      intro hc
      exact hnd.1 (by rwa [← hc] at htl)

theorem flatten_map_singleton {α β : Type} (f : α → β) (l : List α) :
    (l.map (fun x => [f x])).flatten = l.map f := by
  induction l with
  | nil => rfl
  | cons x rest ih => simp [ih]

theorem filter_eq_of_nodup {l : List Int} (hnd : l.Nodup) (j : Int) :
    l.filter (fun c => decide (c = j)) = if j ∈ l then [j] else [] := by
  induction l with
  | nil => simp
  | cons x rest ih =>
    rw [List.nodup_cons] at hnd
    by_cases hx : x = j
    · subst hx
      rw [List.filter_cons_of_pos (by simp), if_pos (List.mem_cons_self _ _)]
      have : rest.filter (fun c => decide (c = x)) = [] := by
        rw [ih hnd.2, if_neg hnd.1]
      rw [this]
    · rw [List.filter_cons_of_neg (by simp [hx]), ih hnd.2]
      by_cases hj : j ∈ rest
      · rw [if_pos hj, if_pos (List.mem_cons_of_mem _ hj)]
      · rw [if_neg hj, if_neg (fun hc => ?_)]
        rcases List.mem_cons.mp hc with h | h
        · exact hx h.symm
        · exact hj h

theorem allPositions_filter_row (h w i : Int) (h0 : 0 ≤ i) (h1 : i < h) :
    (allPositions h w).filter (fun p => decide (p.row = i)) =
      (loopRange w).map (fun c => Position.mk i c) := by
  unfold allPositions
  rw [List.filter_flatten, List.map_map]
  have hblock : ∀ r ∈ loopRange h,
      (List.filter (fun p => decide (p.row = i)) ∘
        fun r => (loopRange w).map (fun c => Position.mk r c)) r =
      if r = i then (loopRange w).map (fun c => Position.mk i c) else [] := by
    intro r _
    simp only [Function.comp_apply]
    by_cases hr : r = i
    · subst hr
      rw [if_pos rfl, List.filter_eq_self.mpr]
      intro p hp
      rw [List.mem_map] at hp
      obtain ⟨c, -, rfl⟩ := hp
      simp
    · rw [if_neg hr, List.filter_eq_nil_iff.mpr]
      intro p hp
      rw [List.mem_map] at hp
      obtain ⟨c, -, rfl⟩ := hp
      simp [hr]
  rw [List.map_congr_left hblock]
  exact flatten_map_ite _ (loopRange_nodup h) (mem_loopRange.mpr ⟨h0, h1⟩)

theorem allPositions_filter_col (h w j : Int) (h0 : 0 ≤ j) (h1 : j < w) :
    (allPositions h w).filter (fun p => decide (p.col = j)) =
      (loopRange h).map (fun r => Position.mk r j) := by
  unfold allPositions
  rw [List.filter_flatten, List.map_map]
  have hblock : ∀ r ∈ loopRange h,
      (List.filter (fun p => decide (p.col = j)) ∘
        fun r => (loopRange w).map (fun c => Position.mk r c)) r =
      [Position.mk r j] := by
    intro r _
    simp only [Function.comp_apply]
    have hpred : (fun p => decide (p.col = j)) ∘ (fun c => Position.mk r c) =
        (fun c : Int => decide (c = j)) := by
      funext c
      simp
    rw [List.filter_map, hpred, filter_eq_of_nodup (loopRange_nodup w) j,
      if_pos (mem_loopRange.mpr ⟨h0, h1⟩)]
    rfl
  rw [List.map_congr_left hblock]
  exact flatten_map_singleton _ _

theorem rowLine_positions {board : Board T} (hg : IsGridBoard board) {i : Int}
    (h0 : 0 ≤ i) (h1 : i < board.height) :
    (FindAllTilePiecesInRow board i).map (·.position) =
      (loopRange board.width).map (fun c => Position.mk i c) := by
  unfold FindAllTilePiecesInRow
  have hpred : (fun element : TilePiece T => decide (element.position.row = i)) =
      ((fun q : Position => decide (q.row = i)) ∘ (·.position)) := rfl
  rw [hpred, ← List.filter_map, hg, allPositions_filter_row _ _ _ h0 h1]

theorem colLine_positions {board : Board T} (hg : IsGridBoard board) {j : Int}
    (h0 : 0 ≤ j) (h1 : j < board.width) :
    (FindAllTilePiecesInColumn board j).map (·.position) =
      (loopRange board.height).map (fun r => Position.mk r j) := by
  unfold FindAllTilePiecesInColumn
  have hpred : (fun element : TilePiece T => decide (element.position.col = j)) =
      ((fun q : Position => decide (q.col = j)) ∘ (·.position)) := rfl
  rw [hpred, ← List.filter_map, hg, allPositions_filter_col _ _ _ h0 h1]

theorem eq_of_position_eq {l : List (TilePiece T)} (hnd : (l.map (·.position)).Nodup)
    {t1 t2 : TilePiece T} (h1 : t1 ∈ l) (h2 : t2 ∈ l) (hp : t1.position = t2.position) :
    t1 = t2 := by
  have e1 : l.find? (fun e => decide (e.position = t1.position)) = some t1 :=
    find?_position_of_mem hnd h1
  have e2 : l.find? (fun e => decide (e.position = t2.position)) = some t2 :=
    find?_position_of_mem hnd h2
  rw [hp] at e1
  rw [e1] at e2
  injection e2

theorem mem_colLoopIndices {w i : Int} : i ∈ colLoopIndices w ↔ 0 ≤ i ∧ i ≤ w := by
  unfold colLoopIndices
  by_cases hw : w < 0
  · rw [if_pos hw]
    simp
    omega
  · rw [if_neg hw, List.mem_reverse]
    simp only [List.mem_map, List.mem_range, Int.ofNat_eq_natCast]
    constructor
    · rintro ⟨k, hk, rfl⟩
      omega
    · rintro ⟨hi0, hi1⟩
      exact ⟨i.toNat, by omega, by omega⟩

theorem rowExplore_shaped {board : Board T} (hg : IsGridBoard board) {i : Int}
    (h0 : 0 ≤ i) (h1 : i < board.height)
    {pre suf : List (TilePiece T)} {e : TilePiece T}
    (hsplit : FindAllTilePiecesInRow board i = pre ++ e :: suf)
    (hpre : ∀ t ∈ pre, t.value ≠ e.value) :
    ∀ eff ∈ (AllNeighboursInRowCheck board e).boardEffects,
      ∃ m, eff = BoardEffect.matchEff m ∧ IsIncreasingRowRun m ∧ MatchSharesValue board m := by
  have hline := rowLine_positions hg h0 h1
  rw [hsplit] at hline
  simp only [List.map_append, List.map_cons] at hline
  have hemem : e ∈ board.tilePieces := by
    have : e ∈ FindAllTilePiecesInRow board i := by
      rw [hsplit]
      exact List.mem_append_right _ (List.mem_cons_self _ _)
    unfold FindAllTilePiecesInRow at this
    exact List.mem_of_mem_filter this
  have hidx : ((loopRange board.width).map (fun c => Position.mk i c))[pre.length]? =
      some e.position := by
    rw [← hline, List.getElem?_append_right (by simp)]
    simp
  have hklt : pre.length < board.width.toNat := by
    by_contra hc
    rw [loopRange, List.getElem?_map, List.getElem?_map,
      List.getElem?_eq_none (by rw [List.length_range]; omega)] at hidx
    simp at hidx
  have epos : e.position = Position.mk i (Int.ofNat pre.length) := by
    rw [loopRange, List.getElem?_map, List.getElem?_map, List.getElem?_range hklt,
      Option.map_some', Option.map_some'] at hidx
    injection hidx with hidx
    exact hidx.symm
  have hpreAt : ∀ k, k < pre.length →
      ∃ tl ∈ pre, tl.position = Position.mk i (Int.ofNat k) := by
    intro k hk
    have hidxk : ((loopRange board.width).map (fun c => Position.mk i c))[k]? =
        (pre.map (·.position))[k]? := by
      rw [← hline, List.getElem?_append_left (by simpa using hk)]
    rw [loopRange, List.getElem?_map, List.getElem?_map, List.getElem?_range (by omega)]
      at hidxk
    rw [List.getElem?_map] at hidxk
    cases hpk : pre[k]? with
    | none => rw [hpk] at hidxk; simp at hidxk
    | some tl =>
      rw [hpk] at hidxk
      rw [Option.map_some', Option.map_some', Option.map_some'] at hidxk
      injection hidxk with hidxk
      exact ⟨tl, List.getElem?_mem hpk, hidxk.symm⟩
  have hLnil : CheckNeighbours (board.tilePieces.length + 1) board
      (FindTilePieceOnPosition board (FindNextPiecePosition e DIRECTION.LEFT))
      [] e.value DIRECTION.LEFT = [] := by
    apply checkNeighbours_stop
    intro t ht
    have nextpos : FindNextPiecePosition e DIRECTION.LEFT =
        Position.mk i (Int.ofNat pre.length - 1) := by
      rw [FindNextPiecePosition, epos]
    rw [nextpos] at ht
    obtain ⟨htpos, htmem⟩ := find?_eq_some_position ht
    have hb := mem_position_bounds hg htmem
    have hcol : 0 ≤ t.position.col := hb.2.2.1
    rw [htpos] at hcol
    simp only [Int.ofNat_eq_natCast] at hcol
    have hpre1 : 1 ≤ pre.length := by omega
    obtain ⟨tl, htlpre, htlpos⟩ := hpreAt (pre.length - 1) (by omega)
    have htlmem : tl ∈ board.tilePieces := by
      have : tl ∈ FindAllTilePiecesInRow board i := by
        rw [hsplit]
        exact List.mem_append_left _ htlpre
      unfold FindAllTilePiecesInRow at this
      exact List.mem_of_mem_filter this
    have hteq : t = tl := by
      refine eq_of_position_eq (grid_positions_nodup hg) htmem htlmem ?_
      rw [htpos, htlpos]
      congr 1
      simp only [Int.ofNat_eq_natCast]
      omega
    rw [hteq]
    exact hpre tl htlpre
  unfold AllNeighboursInRowCheck
  dsimp only
  rw [hLnil]
  have nextposR : FindNextPiecePosition e DIRECTION.RIGHT =
      Position.mk i (Int.ofNat pre.length + 1) := by
    rw [FindNextPiecePosition, epos]
  rw [nextposR]
  obtain ⟨run, hrun, hmap, hprops⟩ := checkNeighbours_chain_right board e.value
    (board.tilePieces.length + 1) (Position.mk i (Int.ofNat pre.length + 1)) []
  rw [List.nil_append] at hrun
  rw [hrun]
  split_ifs with hguard
  · intro eff heff
    unfold CreateBoardEffectForMatch at heff
    simp only [List.mem_singleton] at heff
    refine ⟨_, heff, ?_, ?_⟩
    · refine ⟨i, Int.ofNat pre.length, run.length + 1, by simp at hguard; omega, ?_⟩
      show (e :: run).map (·.position) =
        (List.range (run.length + 1)).map
          (fun k => Position.mk i (Int.ofNat pre.length + Int.ofNat k))
      rw [List.map_cons, epos, hmap, List.range_succ_eq_map, List.map_cons, List.map_map]
      congr 1
      refine (List.map_congr_left ?_).symm
      intro k _
      simp only [Function.comp_apply]
      congr 1
      simp only [Nat.succ_eq_add_one, Int.ofNat_eq_natCast, Nat.cast_add, Nat.cast_one]
      omega
    · show ∀ p ∈ (e :: run).map (·.position),
        ∃ t, FindTilePieceOnPosition board p = some t ∧ t.value = e.value
      intro p hp
      rw [List.map_cons] at hp
      rcases List.mem_cons.mp hp with rfl | hp
      · exact ⟨e, find?_position_of_mem (grid_positions_nodup hg) hemem, rfl⟩
      · rw [List.mem_map] at hp
        obtain ⟨t, htr, rfl⟩ := hp
        obtain ⟨htv, htf⟩ := hprops t htr
        exact ⟨t, htf, htv⟩
  · intro eff heff
    simp at heff

theorem colExplore_shaped {board : Board T} (hg : IsGridBoard board) {j : Int}
    (h0 : 0 ≤ j) (h1 : j < board.width)
    {pre suf : List (TilePiece T)} {e : TilePiece T}
    (hsplit : FindAllTilePiecesInColumn board j = pre ++ e :: suf)
    (hpre : ∀ t ∈ pre, t.value ≠ e.value) :
    ∀ eff ∈ (AllNeighboursInColCheck board e).boardEffects,
      ∃ m, eff = BoardEffect.matchEff m ∧ IsIncreasingColRun m ∧ MatchSharesValue board m := by
  have hline := colLine_positions hg h0 h1
  rw [hsplit] at hline
  simp only [List.map_append, List.map_cons] at hline
  have hemem : e ∈ board.tilePieces := by
    have : e ∈ FindAllTilePiecesInColumn board j := by
      rw [hsplit]
      exact List.mem_append_right _ (List.mem_cons_self _ _)
    unfold FindAllTilePiecesInColumn at this
    exact List.mem_of_mem_filter this
  have hidx : ((loopRange board.height).map (fun r => Position.mk r j))[pre.length]? =
      some e.position := by
    rw [← hline, List.getElem?_append_right (by simp)]
    simp
  have hklt : pre.length < board.height.toNat := by
    by_contra hc
    rw [loopRange, List.getElem?_map, List.getElem?_map,
      List.getElem?_eq_none (by rw [List.length_range]; omega)] at hidx
    simp at hidx
  have epos : e.position = Position.mk (Int.ofNat pre.length) j := by
    rw [loopRange, List.getElem?_map, List.getElem?_map, List.getElem?_range hklt,
      Option.map_some', Option.map_some'] at hidx
    injection hidx with hidx
    exact hidx.symm
  have hpreAt : ∀ k, k < pre.length →
      ∃ tl ∈ pre, tl.position = Position.mk (Int.ofNat k) j := by
    intro k hk
    have hidxk : ((loopRange board.height).map (fun r => Position.mk r j))[k]? =
        (pre.map (·.position))[k]? := by
      rw [← hline, List.getElem?_append_left (by simpa using hk)]
    rw [loopRange, List.getElem?_map, List.getElem?_map, List.getElem?_range (by omega)]
      at hidxk
    rw [List.getElem?_map] at hidxk
    cases hpk : pre[k]? with
    | none => rw [hpk] at hidxk; simp at hidxk
    | some tl =>
      rw [hpk] at hidxk
      rw [Option.map_some', Option.map_some', Option.map_some'] at hidxk
      injection hidxk with hidxk
      exact ⟨tl, List.getElem?_mem hpk, hidxk.symm⟩
  have hLnil : CheckNeighbours (board.tilePieces.length + 1) board
      (FindTilePieceOnPosition board (FindNextPiecePosition e DIRECTION.UP))
      [] e.value DIRECTION.UP = [] := by
    apply checkNeighbours_stop
    intro t ht
    have nextpos : FindNextPiecePosition e DIRECTION.UP =
        Position.mk (Int.ofNat pre.length - 1) j := by
      rw [FindNextPiecePosition, epos]
    rw [nextpos] at ht
    obtain ⟨htpos, htmem⟩ := find?_eq_some_position ht
    have hb := mem_position_bounds hg htmem
    have hrow : 0 ≤ t.position.row := hb.1
    rw [htpos] at hrow
    simp only [Int.ofNat_eq_natCast] at hrow
    have hpre1 : 1 ≤ pre.length := by omega
    obtain ⟨tl, htlpre, htlpos⟩ := hpreAt (pre.length - 1) (by omega)
    have htlmem : tl ∈ board.tilePieces := by
      have : tl ∈ FindAllTilePiecesInColumn board j := by
        rw [hsplit]
        exact List.mem_append_left _ htlpre
      unfold FindAllTilePiecesInColumn at this
      exact List.mem_of_mem_filter this
    have hteq : t = tl := by
      refine eq_of_position_eq (grid_positions_nodup hg) htmem htlmem ?_
      rw [htpos, htlpos]
      congr 1
      simp only [Int.ofNat_eq_natCast]
      omega
    rw [hteq]
    exact hpre tl htlpre
  unfold AllNeighboursInColCheck
  dsimp only
  rw [hLnil]
  have nextposD : FindNextPiecePosition e DIRECTION.DOWN =
      Position.mk (Int.ofNat pre.length + 1) j := by
    rw [FindNextPiecePosition, epos]
  rw [nextposD]
  obtain ⟨run, hrun, hmap, hprops⟩ := checkNeighbours_chain_down board e.value
    (board.tilePieces.length + 1) (Position.mk (Int.ofNat pre.length + 1) j) []
  rw [List.nil_append] at hrun
  rw [hrun]
  split_ifs with hguard
  · intro eff heff
    unfold CreateBoardEffectForMatch at heff
    simp only [List.mem_singleton] at heff
    refine ⟨_, heff, ?_, ?_⟩
    · refine ⟨Int.ofNat pre.length, j, run.length + 1, by simp at hguard; omega, ?_⟩
      show (e :: run).map (·.position) =
        (List.range (run.length + 1)).map
          (fun k => Position.mk (Int.ofNat pre.length + Int.ofNat k) j)
      rw [List.map_cons, epos, hmap, List.range_succ_eq_map, List.map_cons, List.map_map]
      congr 1
      refine (List.map_congr_left ?_).symm
      intro k _
      simp only [Function.comp_apply]
      congr 1
      simp only [Nat.succ_eq_add_one, Int.ofNat_eq_natCast, Nat.cast_add, Nat.cast_one]
      omega
    · show ∀ p ∈ (e :: run).map (·.position),
        ∃ t, FindTilePieceOnPosition board p = some t ∧ t.value = e.value
      intro p hp
      rw [List.map_cons] at hp
      rcases List.mem_cons.mp hp with rfl | hp
      · exact ⟨e, find?_position_of_mem (grid_positions_nodup hg) hemem, rfl⟩
      · rw [List.mem_map] at hp
        obtain ⟨t, htr, rfl⟩ := hp
        obtain ⟨htv, htf⟩ := hprops t htr
        exact ⟨t, htf, htv⟩
  · intro eff heff
    simp at heff

theorem lineScanEffects_sound (check : TilePiece T → MatchResult T)
    (Q : BoardEffect T → Prop) (line : List (TilePiece T))
    (hchk : ∀ (pre : List (TilePiece T)) (e : TilePiece T) (suf : List (TilePiece T)),
      line = pre ++ e :: suf → (∀ t ∈ pre, t.value ≠ e.value) →
      ∀ eff ∈ (check e).boardEffects, Q eff) :
    ∀ (suf pre : List (TilePiece T)) (checked : List (Option T)),
      line = pre ++ suf →
      (∀ v, v ∈ checked ↔ v ∈ pre.map (·.value)) →
      ∀ eff ∈ lineScanEffects check suf checked, Q eff := by
  intro suf
  induction suf with
  | nil =>
    intro pre checked hline hck eff heff
    simp [lineScanEffects] at heff
  | cons e rest ih =>
    intro pre checked hline hck eff heff
    by_cases hmem : e.value ∈ checked
    · rw [lineScanEffects, if_pos hmem] at heff
      refine ih (pre ++ [e]) checked ?_ ?_ eff heff
      · rw [hline]
        simp
      · intro v
        rw [hck v, List.map_append]
        constructor
        · intro hv
          exact List.mem_append_left _ hv
        · intro hv
          rcases List.mem_append.mp hv with h | h
          · exact h
          · simp only [List.map_cons, List.map_nil, List.mem_singleton] at h
            rw [h]
            exact (hck e.value).mp hmem
    · rw [lineScanEffects, if_neg hmem] at heff
      rcases List.mem_append.mp heff with h | h
      · refine hchk pre e rest hline ?_ eff h
        intro t ht hc
        exact hmem ((hck e.value).mpr (hc ▸ List.mem_map_of_mem _ ht))
      · refine ih (pre ++ [e]) (checked ++ [e.value]) ?_ ?_ eff h
        · rw [hline]
          simp
        · intro v
          rw [List.mem_append, hck v, List.map_append]
          simp

theorem rowFinder_shape (board : Board T) (hg : IsGridBoard board) :
    ∀ m, BoardEffect.matchEff m ∈ (FindAllRowMatches board).boardEffects →
      IsIncreasingRowRun m ∧ MatchSharesValue board m := by
  intro m hm
  rw [findAllRowMatches_eq] at hm
  simp only [List.mem_flatten, List.mem_map] at hm
  obtain ⟨l, ⟨i, hi, rfl⟩, hel⟩ := hm
  obtain ⟨h0, h1⟩ := mem_loopRange.mp hi
  have hsound := lineScanEffects_sound (AllNeighboursInRowCheck board)
    (fun eff => ∃ m', eff = BoardEffect.matchEff m' ∧
      IsIncreasingRowRun m' ∧ MatchSharesValue board m')
    (FindAllTilePiecesInRow board i)
    (fun pre e suf hsp hpre => rowExplore_shaped hg h0 h1 hsp hpre)
    (FindAllTilePiecesInRow board i) [] [] rfl (by simp)
  obtain ⟨m', hm', hshape, hshare⟩ := hsound _ hel
  injection hm' with hm'
  rw [hm']
  exact ⟨hshape, hshare⟩

theorem colFinder_shape (board : Board T) (hg : IsGridBoard board) :
    ∀ m, BoardEffect.matchEff m ∈ (FindAllColumnMatches board).boardEffects →
      IsIncreasingColRun m ∧ MatchSharesValue board m := by
  intro m hm
  rw [findAllColumnMatches_eq] at hm
  simp only [List.mem_flatten, List.mem_map] at hm
  obtain ⟨l, ⟨j, hj, rfl⟩, hel⟩ := hm
  obtain ⟨h0, h1⟩ := mem_colLoopIndices.mp hj
  rcases lt_or_eq_of_le h1 with h1' | rfl
  · have hsound := lineScanEffects_sound (AllNeighboursInColCheck board)
      (fun eff => ∃ m', eff = BoardEffect.matchEff m' ∧
        IsIncreasingColRun m' ∧ MatchSharesValue board m')
      (FindAllTilePiecesInColumn board j)
      (fun pre e suf hsp hpre => colExplore_shaped hg h0 h1' hsp hpre)
      (FindAllTilePiecesInColumn board j) [] [] rfl (by simp)
    obtain ⟨m', hm', hshape, hshare⟩ := hsound _ hel
    injection hm' with hm'
    rw [hm']
    exact ⟨hshape, hshare⟩
  · rw [tilesInColumn_out_of_range hg (le_refl _)] at hel
    simp [lineScanEffects] at hel

theorem checkBoardLoop_shape (fuel : Nat) :
    ∀ (b : Board T) (g : List T) (effs : List (BoardEffect T)) (b' : Board T)
      (g' : List T) (e' : List (BoardEffect T)),
      CheckBoardLoop fuel b g effs = CascadeResult.ok b' g' e' →
      IsGridBoard b →
      (∀ m, BoardEffect.matchEff m ∈ effs → IsIncreasingRowRun m ∨ IsIncreasingColRun m) →
      ∀ m, BoardEffect.matchEff m ∈ e' → IsIncreasingRowRun m ∨ IsIncreasingColRun m := by
  induction fuel with
  | zero => intro b g effs b' g' e' h; cases h
  | succ fuel ih =>
    intro b g effs b' g' e' h hg heffs
    rw [CheckBoardLoop] at h
    dsimp only at h
    split_ifs at h with hq
    · injection h with hb hgen he
      subst he
      intro m hm
      rcases List.mem_append.mp hm with hm1 | hm1
      · rcases List.mem_append.mp hm1 with hm2 | hm2
        · exact heffs m hm2
        · exact Or.inl (rowFinder_shape b hg m hm2).1
      · exact Or.inr (colFinder_shape b hg m hm1).1
    · cases hscan : UpdateScan
          (MatchValuesRemoved b (FindAllRowMatches b).matchesFound
            (FindAllColumnMatches b).matchesFound) g with
      | none => rw [hscan] at h; cases h
      | some bg =>
        obtain ⟨b2, g2⟩ := bg
        rw [hscan] at h
        have hsk1 := matchValuesRemoved_skeleton b (FindAllRowMatches b).matchesFound
          (FindAllColumnMatches b).matchesFound
        rw [UpdateScan] at hscan
        have hsk2 := (scanFold_skeleton _ _ _ _ _ hscan).1
        have hg2 : IsGridBoard b2 :=
          isGridBoard_of_skeleton (sameSkeleton_trans hsk1 hsk2) hg
        refine ih _ _ _ _ _ _ h hg2 ?_
        intro m hm
        rcases List.mem_append.mp hm with hm1 | hm1
        · rcases List.mem_append.mp hm1 with hm2 | hm2
          · rcases List.mem_append.mp hm2 with hm3 | hm3
            · exact heffs m hm3
            · exact Or.inl (rowFinder_shape b hg m hm3).1
          · exact Or.inr (colFinder_shape b hg m hm2).1
        · rw [List.mem_singleton] at hm1
          cases hm1

/-- Claim C10: every `Match` effect describes a contiguous run in strictly
increasing coordinate order along its axis.  On a grid-shaped board, each
row-scan `Match` effect lists positions `(r,c), (r,c+1), …` (increasing
columns, `n ≥ 3`) and each column-scan `Match` effect lists positions
`(r,c), (r+1,c), …` (increasing rows, `n ≥ 3`); the `matched` field equals
the stored value of every listed tile (the scans explore each value at its
least-index occurrence in the line, so the backward walk collects nothing);
and every `Match` effect in the log of a completed `move` has one of these
two increasing-run shapes. -/
theorem match_effects_shape (board : Board T) (hg : IsGridBoard board) :
    (∀ m, BoardEffect.matchEff m ∈ (FindAllRowMatches board).boardEffects →
      IsIncreasingRowRun m ∧ MatchSharesValue board m) ∧
    (∀ m, BoardEffect.matchEff m ∈ (FindAllColumnMatches board).boardEffects →
      IsIncreasingColRun m ∧ MatchSharesValue board m) ∧
    (∀ (gen : List T) (a c : Position) (res : MoveResult T) (g' : List T),
      move gen board a c = some (res, g') →
      ∀ m, BoardEffect.matchEff m ∈ res.boardEffects →
        IsIncreasingRowRun m ∨ IsIncreasingColRun m) := by
  refine ⟨rowFinder_shape board hg, colFinder_shape board hg, ?_⟩
  intro gen a c res g' hmv m hm
  unfold move at hmv
  by_cases hleg : IsMoveLegal board a c = true
  · rw [if_pos hleg] at hmv
    dsimp only at hmv
    cases hLoop : CheckBoardLoop (gen.length + 1) (SwapPieces board a c) gen [] with
    | genFail => rw [hLoop] at hmv; cases hmv
    | fuelFail => rw [hLoop] at hmv; cases hmv
    | ok b2 g2 e2 =>
      rw [hLoop] at hmv
      injection hmv with hmv1
      injection hmv1 with hres hgen
      subst hres
      refine checkBoardLoop_shape _ _ _ _ _ _ _ hLoop
        (isGridBoard_of_skeleton (swapPieces_skeleton board a c) hg) ?_ m hm
      intro m' hm'
      simp at hm'
  · rw [if_neg hleg] at hmv
    injection hmv with hmv1
    injection hmv1 with hres hgen
    subst hres
    simp at hm

/-- Witness for C10 at the concrete 3×4 fixture board. -/
theorem match_effects_shape_witness :
    (∀ m, BoardEffect.matchEff m ∈ (FindAllRowMatches c9board).boardEffects →
      IsIncreasingRowRun m ∧ MatchSharesValue c9board m) ∧
    (∀ m, BoardEffect.matchEff m ∈ (FindAllColumnMatches c9board).boardEffects →
      IsIncreasingColRun m ∧ MatchSharesValue c9board m) ∧
    (∀ (gen : List Char) (a c : Position) (res : MoveResult Char) (g' : List Char),
      move gen c9board a c = some (res, g') →
      ∀ m, BoardEffect.matchEff m ∈ res.boardEffects →
        IsIncreasingRowRun m ∨ IsIncreasingColRun m) :=
  match_effects_shape c9board (by decide)

/-- Claim C9: the concrete scenario.  `create` on the row-major values
`A,B,A / D,B,C / D,A,C / C,D,D` (width 3, height 4) yields exactly the
fixture board; swapping `(0,1)` and `(2,1)` is legal; and with the supplier
primed to yield `B,C,D`, `move` returns the final board
`B,C,D / D,B,C / D,B,C / C,D,D` with a `Refill` effect as the last element
of the effect log (consuming the whole supply). -/
theorem move_concrete_scenario :
    create ['A','B','A','D','B','C','D','A','C','C','D','D'] 3 4 = some (c9board, []) ∧
    canMove c9board ⟨0, 1⟩ ⟨2, 1⟩ = true ∧
    move c9supply c9board ⟨0, 1⟩ ⟨2, 1⟩ = some (c9res, []) ∧
    c9res.board = c9final ∧
    (c9res.boardEffects.getLast?.map isRefillEffect) = some true := by
  refine ⟨by decide, by decide, by decide, rfl, by decide⟩

end Match3
